import Mathlib

/-!
# StaticSite lexer (`src/lex.go`)

A shallow embedding of the pull-based lexer of package `parse` and a
verification of its token-level behaviour.

Go strings are byte sequences, modelled as `List Nat` (one entry per byte).
Runes are `Int` so that the sentinel `eof = -1` is a rune value.  Go `int`
offsets are `Nat`: every offset is bounded by the length of the input, so no
wrap-around can occur.

A Go panic (slice out of range, call of a nil function value), a send on
the full `items` channel (nothing would ever receive it) and an exhausted
loop budget are the three ways a run can fail to produce a value; they are
kept apart in `Fault`.
-/

namespace Parse


/-! ## Data model -/

/-- The Go type `ItemType` with its four constants. -/
inductive ItemType where
  | itemError
  | itemEOF
  | itemH1
  | itemText
deriving DecidableEq, Repr

/-- The Go struct `item`. -/
structure item where
  typ : ItemType
  val : List Nat
deriving DecidableEq, Repr

/-- The function values a `stateFn` variable can hold; the nil `stateFn` is
`none` in `Option stateFn`. -/
inductive stateFn where
  | lexNewLine
  | lexText
  | lexHeader
  | lexHeaderText
deriving DecidableEq, Repr

/-- Ways in which a run fails to return. -/
inductive Fault where
  | panic
  | deadlock
  | fuel
deriving DecidableEq, Repr

/-- The Go struct `lexer`; `items` is the content of the buffered channel,
oldest element first. -/
structure lexer where
  name : List Nat
  input : List Nat
  state : Option stateFn
  start : Nat
  pos : Nat
  width : Nat
  items : List item
deriving DecidableEq, Repr

/-- The constant `eof`. -/
def eof : Int := -1

/-- The constant `h1`, the string "#". -/
def h1 : List Nat := [35]

/-- The constant `endPar`, two newline bytes. -/
def endPar : List Nat := [10, 10]

/-- Capacity of the channel made in `lex`. -/
def itemsCap : Nat := 2

/-! ## Go runtime and standard library -/

/-- The slice expression `s[a:]`; out of range panics. -/
def sliceFrom (s : List Nat) (a : Nat) : Except Fault (List Nat) :=
  if a ≤ s.length then .ok (s.drop a) else .error .panic

/-- The slice expression `s[a:b]`; out of range panics. -/
def slice (s : List Nat) (a b : Nat) : Except Fault (List Nat) :=
  if a ≤ b ∧ b ≤ s.length then .ok ((s.drop a).take (b - a)) else .error .panic

/-- The library function `strings.HasPrefix`. -/
def HasPrefix (s p : List Nat) : Bool := p.isPrefixOf s

/-- The library function `strings.Index`: offset of the first occurrence of
`sep` in `s`, or `-1`. -/
def Index : List Nat → List Nat → Int
  | [], sep => if sep.isPrefixOf [] then 0 else -1
  | b :: t, sep =>
    if sep.isPrefixOf (b :: t) then 0
    else if Index t sep < 0 then -1 else Index t sep + 1

/-- The constant `utf8.RuneError`. -/
def RuneError : Int := 0xFFFD

/-- The table `first` of package `unicode/utf8`: information about the first
byte of an encoding (`0xF0` ASCII, `0xF1` invalid, otherwise the accept-range
index in the high nibble and the size in the low one). -/
def first (b : Nat) : Nat :=
  if b < 0x80 then 0xF0
  else if b < 0xC2 then 0xF1
  else if b < 0xE0 then 0x02
  else if b = 0xE0 then 0x13
  else if b < 0xED then 0x03
  else if b = 0xED then 0x23
  else if b < 0xF0 then 0x03
  else if b = 0xF0 then 0x34
  else if b < 0xF4 then 0x04
  else if b = 0xF4 then 0x44
  else 0xF1

/-- The table `acceptRanges` of package `unicode/utf8`: bounds of the second
byte. -/
def acceptRanges (i : Nat) : Nat × Nat :=
  match i with
  | 0 => (0x80, 0xBF)
  | 1 => (0xA0, 0xBF)
  | 2 => (0x80, 0x9F)
  | 3 => (0x90, 0xBF)
  | 4 => (0x80, 0x8F)
  | _ => (0, 0)

/-- The library function `utf8.DecodeRuneInString`: the first rune of `s` and
its width in bytes; `(RuneError, 0)` on the empty string and `(RuneError, 1)`
on an invalid encoding. -/
def DecodeRuneInString (s : List Nat) : Int × Nat :=
  match s with
  | [] => (RuneError, 0)
  | s0 :: t =>
    if first s0 ≥ 0xF0 then
      if first s0 = 0xF0 then ((s0 : Int), 1) else (RuneError, 1)
    else if s.length < first s0 % 8 then (RuneError, 1)
    else
      match t with
      | [] => (RuneError, 1)
      | s1 :: t1 =>
        if s1 < (acceptRanges (first s0 / 16)).1 ∨ (acceptRanges (first s0 / 16)).2 < s1 then
          (RuneError, 1)
        else if first s0 % 8 ≤ 2 then
          ((((s0 % 32) * 64 + s1 % 64 : Nat) : Int), 2)
        else
          match t1 with
          | [] => (RuneError, 1)
          | s2 :: t2 =>
            if s2 < 0x80 ∨ 0xBF < s2 then (RuneError, 1)
            else if first s0 % 8 ≤ 3 then
              ((((s0 % 16) * 4096 + (s1 % 64) * 64 + s2 % 64 : Nat) : Int), 3)
            else
              match t2 with
              | [] => (RuneError, 1)
              | s3 :: _ =>
                if s3 < 0x80 ∨ 0xBF < s3 then (RuneError, 1)
                else
                  ((((s0 % 8) * 262144 + (s1 % 64) * 4096 + (s2 % 64) * 64 + s3 % 64 : Nat)
                    : Int), 4)

/-! ## The lexer -/

/-- The constructor `lex`. -/
def lex (name input : List Nat) : lexer :=
  { name := name, input := input, state := some .lexNewLine,
    start := 0, pos := 0, width := 0, items := [] }

/-- The method `emit`: the slice is evaluated first, then sent; a send on a
full channel would block forever. -/
def emit (l : lexer) (t : ItemType) : Except Fault lexer :=
  match slice l.input l.start l.pos with
  | .error e => .error e
  | .ok v =>
    if l.items.length < itemsCap then
      .ok { l with items := l.items ++ [⟨t, v⟩], start := l.pos }
    else .error .deadlock

/-- The method `errorf`, with the formatted message as its argument: an
`itemError` token is sent and the nil state returned.  No state function
calls it. -/
def errorf (l : lexer) (msg : List Nat) : Except Fault (lexer × Option stateFn) :=
  if l.items.length < itemsCap then
    .ok ({ l with items := l.items ++ [⟨.itemError, msg⟩] }, none)
  else .error .deadlock

/-- The method `ignore`. -/
def ignore (l : lexer) : lexer := { l with start := l.pos }

/-- The function `isSpace`. -/
def isSpace (r : Int) : Bool := r = 32 ∨ r = 9

/-- The method `next`. -/
def next (l : lexer) : Except Fault (Int × lexer) :=
  if l.pos ≥ l.input.length then .ok (eof, { l with width := 0 })
  else
    match sliceFrom l.input l.pos with
    | .error e => .error e
    | .ok s =>
      .ok ((DecodeRuneInString s).1,
        { l with width := (DecodeRuneInString s).2, pos := l.pos + (DecodeRuneInString s).2 })

/-- The `for` loop of `lexNewLine`; the first argument bounds the number of
iterations. -/
def lexNewLineLoop : Nat → lexer → Except Fault lexer
  | 0, _ => .error .fuel
  | n + 1, l =>
    match sliceFrom l.input l.pos with
    | .error e => .error e
    | .ok s =>
      if HasPrefix s [10] then lexNewLineLoop n (ignore { l with pos := l.pos + 1 })
      else .ok l

/-- The state function `lexNewLine`: the lexer after the call and the
returned state. -/
def lexNewLine (l : lexer) : Except Fault (lexer × Option stateFn) :=
  match lexNewLineLoop (l.input.length + 1) l with
  | .error e => .error e
  | .ok l1 =>
    match sliceFrom l1.input l1.pos with
    | .error e => .error e
    | .ok s =>
      if HasPrefix s h1 then .ok (l1, some .lexHeader) else .ok (l1, some .lexText)

/-- The code of `lexText` after its loop ("Correctly reached EOF"). -/
def lexTextEOF (l : lexer) : Except Fault (lexer × Option stateFn) :=
  match (if l.pos > l.start then emit l .itemText else .ok l) with
  | .error e => .error e
  | .ok l1 =>
    match emit l1 .itemEOF with
    | .error e => .error e
    | .ok l2 => .ok (l2, none)

/-- The `for` loop of `lexText` together with what follows its `break`; the
first argument bounds the number of iterations. -/
def lexTextLoop : Nat → lexer → Except Fault (lexer × Option stateFn)
  | 0, _ => .error .fuel
  | n + 1, l =>
    match sliceFrom l.input l.pos with
    | .error e => .error e
    | .ok s =>
      if HasPrefix s endPar then
        if l.pos > l.start then
          match emit l .itemText with
          | .error e => .error e
          | .ok l1 => .ok (l1, some .lexNewLine)
        else .ok (l, some .lexNewLine)
      else
        match next l with
        | .error e => .error e
        | .ok (r, l1) => if r = eof then lexTextEOF l1 else lexTextLoop n l1

/-- The state function `lexText`. -/
def lexText (l : lexer) : Except Fault (lexer × Option stateFn) :=
  lexTextLoop (l.input.length + 1) l

/-- The `for` loop of `lexHeader`. -/
def lexHeaderLoop : Nat → lexer → Except Fault lexer
  | 0, _ => .error .fuel
  | n + 1, l =>
    match sliceFrom l.input l.pos with
    | .error e => .error e
    | .ok s =>
      if HasPrefix s h1 then lexHeaderLoop n { l with pos := l.pos + h1.length }
      else .ok l

/-- The state function `lexHeader`. -/
def lexHeader (l : lexer) : Except Fault (lexer × Option stateFn) :=
  match lexHeaderLoop (l.input.length + 1) { l with pos := l.pos + h1.length } with
  | .error e => .error e
  | .ok l1 =>
    match emit l1 .itemH1 with
    | .error e => .error e
    | .ok l2 => .ok (l2, some .lexHeaderText)

/-- The `for isSpace(l.next())` loop of `lexHeaderText`: the rune that ends
the loop has been read as well. -/
def lexHeaderTextLoop : Nat → lexer → Except Fault lexer
  | 0, _ => .error .fuel
  | n + 1, l =>
    match next l with
    | .error e => .error e
    | .ok (r, l1) => if isSpace r then lexHeaderTextLoop n (ignore l1) else .ok l1

/-- The state function `lexHeaderText`. -/
def lexHeaderText (l : lexer) : Except Fault (lexer × Option stateFn) :=
  match lexHeaderTextLoop (l.input.length + 1) l with
  | .error e => .error e
  | .ok l1 =>
    match sliceFrom l1.input l1.pos with
    | .error e => .error e
    | .ok s =>
      let l2 := if Index s [10] > 0 then { l1 with pos := l1.pos + (Index s [10]).toNat } else l1
      if l2.pos > l2.start then
        match emit l2 .itemText with
        | .error e => .error e
        | .ok l3 => .ok (l3, some .lexNewLine)
      else .ok (l2, some .lexNewLine)

/-- Call of a non-nil `stateFn` value. -/
def callState : stateFn → lexer → Except Fault (lexer × Option stateFn)
  | .lexNewLine, l => lexNewLine l
  | .lexText, l => lexText l
  | .lexHeader, l => lexHeader l
  | .lexHeaderText, l => lexHeaderText l

/-- The `for`/`select` loop of `nextItem`; the first argument bounds the
number of state-function calls.  Calling the nil state panics. -/
def nextItemLoop : Nat → lexer → Except Fault (item × lexer)
  | 0, _ => .error .fuel
  | n + 1, l =>
    match l.items with
    | it :: rest => .ok (it, { l with items := rest })
    | [] =>
      match l.state with
      | none => .error .panic
      | some f =>
        match callState f l with
        | .error e => .error e
        | .ok (l1, s) => nextItemLoop n { l1 with state := s }

/-- The method `nextItem`.  On a lexer reached from `lex`, one call makes at
most three state-function calls before a token is in the buffer (`need_le`,
`nextItem_spec`); the fourth round of the loop is the receive. -/
def nextItem (l : lexer) : Except Fault (item × lexer) := nextItemLoop 4 l

/-- The loop of the test helper `collect`, with the items gathered so far. -/
def collectLoop : Nat → lexer → List item → Except Fault (List item)
  | 0, _, _ => .error .fuel
  | n + 1, l, acc =>
    match nextItem l with
    | .error e => .error e
    | .ok (it, l1) =>
      if it.typ = .itemEOF ∨ it.typ = .itemError then .ok (acc ++ [it])
      else collectLoop n l1 (acc ++ [it])

/-- The test helper `collect`: the tokens up to and including the first
`itemEOF` or `itemError`.  A token other than `itemEOF` covers at least one
byte of the input, which bounds the number of calls. -/
def collect (name input : List Nat) : Except Fault (List item) :=
  collectLoop (input.length + 1) (lex name input) []

/-- UTF-8 encoding of one code point, for writing inputs as string literals. -/
def encodeRune (c : Nat) : List Nat :=
  if c < 0x80 then [c]
  else if c < 0x800 then [0xC0 + c / 64, 0x80 + c % 64]
  else if c < 0x10000 then [0xE0 + c / 4096, 0x80 + c / 64 % 64, 0x80 + c % 64]
  else [0xF0 + c / 262144, 0x80 + c / 4096 % 64, 0x80 + c / 64 % 64, 0x80 + c % 64]

/-- The bytes of a string literal. -/
def bytes (s : String) : List Nat := s.toList.flatMap (fun c => encodeRune c.toNat)

/-! ## Reachable lexers -/

/-- The lexers a client can hold: the one made by `lex name input` and those
left by a call of `nextItem` that returned. -/
inductive Reachable (name input : List Nat) : lexer → Prop where
  | init : Reachable name input (lex name input)
  | step (l l1 : lexer) (it : item) :
      Reachable name input l → nextItem l = .ok (it, l1) → Reachable name input l1

/-- The lexers met in a run from `lex name input`, round by round of the loop
of `nextItem`: a round either receives the oldest buffered token, or, with the
buffer empty, calls the current state function and stores the state it
returns.  These are the lexers between two calls of `nextItem` and the lexers
on entry to every state function. -/
inductive Run (name input : List Nat) : lexer → Prop where
  | init : Run name input (lex name input)
  | recv (l : lexer) (it : item) (rest : List item) :
      Run name input l → l.items = it :: rest → Run name input { l with items := rest }
  | call (l l1 : lexer) (f : stateFn) (s : Option stateFn) :
      Run name input l → l.items = [] → l.state = some f → callState f l = .ok (l1, s) →
      Run name input { l1 with state := s }

/-! ## Functions of the unread input

The state functions only read the input from `pos` on.  The definitions
below describe, for the unread input `s`, how far each loop of the source
goes and what one call of a state function does; the theorems that follow
prove that the embedded code computes exactly these. -/

/-- Number of leading newline bytes. -/
def nlSpan : List Nat → Nat
  | [] => 0
  | b :: t => if b = 10 then nlSpan t + 1 else 0

/-- Number of leading `#` bytes. -/
def hashSpan : List Nat → Nat
  | [] => 0
  | b :: t => if b = 35 then hashSpan t + 1 else 0

/-- Number of leading space and tab bytes. -/
def spSpan : List Nat → Nat
  | [] => 0
  | b :: t => if b = 32 ∨ b = 9 then spSpan t + 1 else 0

/-- Offset of the first place where two newline bytes follow each other, the
length when there is none. -/
def textLen : List Nat → Nat
  | [] => 0
  | b :: t => if HasPrefix (b :: t) endPar then 0 else textLen t + 1

/-- Length of the header text that `lexHeaderText` emits when the unread input
(after the blanks) is `s`: the first rune, then the bytes before the next
newline when that newline is not the very next byte. -/
def headTextLen (s : List Nat) : Nat :=
  (DecodeRuneInString s).2 + (Index (s.drop (DecodeRuneInString s).2) [10]).toNat

/-- Tokens emitted by one call of a state function on unread input `s`. -/
def stepItems : stateFn → List Nat → List item
  | .lexNewLine, _ => []
  | .lexText, s =>
    (if 0 < textLen s then [⟨.itemText, s.take (textLen s)⟩] else []) ++
      (if textLen s < s.length then [] else [⟨.itemEOF, []⟩])
  | .lexHeader, [] => []
  | .lexHeader, b :: t => [⟨.itemH1, (b :: t).take (1 + hashSpan t)⟩]
  | .lexHeaderText, s =>
    if 0 < headTextLen (s.drop (spSpan s)) then
      [⟨.itemText, (s.drop (spSpan s)).take (headTextLen (s.drop (spSpan s)))⟩]
    else []

/-- Number of bytes one call of a state function moves past. -/
def stepLen : stateFn → List Nat → Nat
  | .lexNewLine, s => nlSpan s
  | .lexText, s => textLen s
  | .lexHeader, [] => 0
  | .lexHeader, _ :: t => 1 + hashSpan t
  | .lexHeaderText, s => spSpan s + headTextLen (s.drop (spSpan s))

/-- State returned by one call of a state function. -/
def stepNext : stateFn → List Nat → Option stateFn
  | .lexNewLine, s =>
    some (if HasPrefix (s.drop (nlSpan s)) h1 then .lexHeader else .lexText)
  | .lexText, s => if textLen s < s.length then some .lexNewLine else none
  | .lexHeader, [] => none
  | .lexHeader, _ :: _ => some .lexHeaderText
  | .lexHeaderText, _ => some .lexNewLine

/-- Termination measure of the scan: four units per unread byte, plus a rank
of the state that orders the calls that pass no byte. -/
def mu (f : stateFn) (s : List Nat) : Nat :=
  4 * s.length +
    match f with
    | .lexHeader => 0
    | .lexText => if HasPrefix s endPar then 3 else 1
    | .lexNewLine => 2
    | .lexHeaderText => 3

/-- `lexHeader` is only ever entered with a byte to read. -/
def Valid (f : stateFn) (s : List Nat) : Prop := f = .lexHeader → s ≠ []

/-- Number of state-function calls that may be needed before a token is in
the buffer. -/
def calls (f : stateFn) (s : List Nat) : Nat :=
  match f with
  | .lexHeader => 1
  | .lexText => if HasPrefix s endPar then 3 else 1
  | .lexNewLine => 2
  | .lexHeaderText => 3

/-- The same for a lexer between two calls: none when a token is buffered. -/
def need (q : List item) (st : Option stateFn) (s : List Nat) : Nat :=
  match q, st with
  | _ :: _, _ => 0
  | [], none => 0
  | [], some f => calls f s

/-- `lexHeader` is only ever entered at a `#`. -/
def AtHash (f : stateFn) (s : List Nat) : Prop := f = .lexHeader → s.head? = some 35

/-- A `Text` or `H1` token: one that covers input. -/
def isData (x : item) : Bool := decide (x.typ = .itemText ∨ x.typ = .itemH1)

/-- A byte the lexer may skip: newline, space or tab. -/
def isBlank (b : Nat) : Prop := b = 10 ∨ b = 32 ∨ b = 9

/-- The input rebuilt from a first gap and the tokens' texts, each with the
gap that follows it. -/
def weave (g0 : List Nat) (pairs : List (List Nat × List Nat)) : List Nat :=
  g0 ++ pairs.flatMap (fun p => p.1 ++ p.2)

/-! ## Facts about the decoder -/

theorem decode_cons (s0 : Nat) (t : List Nat) :
    DecodeRuneInString (s0 :: t) =
      if first s0 ≥ 0xF0 then
        if first s0 = 0xF0 then ((s0 : Int), 1) else (RuneError, 1)
      else if (s0 :: t).length < first s0 % 8 then (RuneError, 1)
      else
        match t with
        | [] => (RuneError, 1)
        | s1 :: t1 =>
          if s1 < (acceptRanges (first s0 / 16)).1 ∨ (acceptRanges (first s0 / 16)).2 < s1 then
            (RuneError, 1)
          else if first s0 % 8 ≤ 2 then
            ((((s0 % 32) * 64 + s1 % 64 : Nat) : Int), 2)
          else
            match t1 with
            | [] => (RuneError, 1)
            | s2 :: t2 =>
              if s2 < 0x80 ∨ 0xBF < s2 then (RuneError, 1)
              else if first s0 % 8 ≤ 3 then
                ((((s0 % 16) * 4096 + (s1 % 64) * 64 + s2 % 64 : Nat) : Int), 3)
              else
                match t2 with
                | [] => (RuneError, 1)
                | s3 :: _ =>
                  if s3 < 0x80 ∨ 0xBF < s3 then (RuneError, 1)
                  else
                    ((((s0 % 8) * 262144 + (s1 % 64) * 4096 + (s2 % 64) * 64 + s3 % 64 : Nat)
                      : Int), 4) := rfl

/-- The entry of `first` for a byte, by the range the byte lies in. -/
theorem first_cases (b : Nat) :
    (b < 128 ∧ first b = 0xF0) ∨ (128 ≤ b ∧ first b = 0xF1) ∨
    (0xC2 ≤ b ∧ b < 0xE0 ∧ first b = 0x02) ∨ (b = 0xE0 ∧ first b = 0x13) ∨
    (0xE1 ≤ b ∧ b < 0xF0 ∧ first b = 0x03) ∨ (b = 0xED ∧ first b = 0x23) ∨
    (b = 0xF0 ∧ first b = 0x34) ∨ (0xF1 ≤ b ∧ b < 0xF4 ∧ first b = 0x04) ∨
    (b = 0xF4 ∧ first b = 0x44) := by
  by_cases c0 : b < 0x80
  · have hf : first b = 0xF0 := by unfold first; rw [if_pos c0]
    left; exact ⟨by omega, hf⟩
  by_cases c1 : b < 0xC2
  · have hf : first b = 0xF1 := by unfold first; rw [if_neg c0, if_pos c1]
    right; left; exact ⟨by omega, hf⟩
  by_cases c2 : b < 0xE0
  · have hf : first b = 0x02 := by unfold first; rw [if_neg c0, if_neg c1, if_pos c2]
    right; right; left; exact ⟨by omega, by omega, hf⟩
  by_cases c3 : b = 0xE0
  · have hf : first b = 0x13 := by unfold first; rw [if_neg c0, if_neg c1, if_neg c2, if_pos c3]
    right; right; right; left; exact ⟨by omega, hf⟩
  by_cases c4 : b < 0xED
  · have hf : first b = 0x03 := by unfold first; rw [if_neg c0, if_neg c1, if_neg c2, if_neg c3, if_pos c4]
    right; right; right; right; left; exact ⟨by omega, by omega, hf⟩
  by_cases c5 : b = 0xED
  · have hf : first b = 0x23 := by unfold first; rw [if_neg c0, if_neg c1, if_neg c2, if_neg c3, if_neg c4, if_pos c5]
    right; right; right; right; right; left; exact ⟨by omega, hf⟩
  by_cases c6 : b < 0xF0
  · have hf : first b = 0x03 := by unfold first; rw [if_neg c0, if_neg c1, if_neg c2, if_neg c3, if_neg c4, if_neg c5, if_pos c6]
    right; right; right; right; left; exact ⟨by omega, by omega, hf⟩
  by_cases c7 : b = 0xF0
  · have hf : first b = 0x34 := by unfold first; rw [if_neg c0, if_neg c1, if_neg c2, if_neg c3, if_neg c4, if_neg c5, if_neg c6, if_pos c7]
    right; right; right; right; right; right; left; exact ⟨by omega, hf⟩
  by_cases c8 : b < 0xF4
  · have hf : first b = 0x04 := by unfold first; rw [if_neg c0, if_neg c1, if_neg c2, if_neg c3, if_neg c4, if_neg c5, if_neg c6, if_neg c7, if_pos c8]
    right; right; right; right; right; right; right; left; exact ⟨by omega, by omega, hf⟩
  by_cases c9 : b = 0xF4
  · have hf : first b = 0x44 := by unfold first; rw [if_neg c0, if_neg c1, if_neg c2, if_neg c3, if_neg c4, if_neg c5, if_neg c6, if_neg c7, if_neg c8, if_pos c9]
    right; right; right; right; right; right; right; right; exact ⟨by omega, hf⟩
  · have hf : first b = 0xF1 := by unfold first; rw [if_neg c0, if_neg c1, if_neg c2, if_neg c3, if_neg c4, if_neg c5, if_neg c6, if_neg c7, if_neg c8, if_neg c9]
    right; left; exact ⟨by omega, hf⟩

theorem decode_ascii (b : Nat) (t : List Nat) (h : b < 128) :
    DecodeRuneInString (b :: t) = ((b : Int), 1) := by
  have hf : first b = 0xF0 := by
    have := first_cases b
    omega
  rw [decode_cons, hf]
  rfl

/-- Shape of a decoding result at a byte that is not ASCII: width one with
`RuneError`, or a sequence of two to four bytes none of which is below `0x80`
and a rune that is not below `0x80` either. -/
theorem decode_shape (b : Nat) (t : List Nat) (h : 128 ≤ b) :
    DecodeRuneInString (b :: t) = (RuneError, 1) ∨
    (∃ b1 t1 r, t = b1 :: t1 ∧ 128 ≤ b1 ∧ (128 : Int) ≤ r ∧
      DecodeRuneInString (b :: t) = (r, 2)) ∨
    (∃ b1 b2 t2 r, t = b1 :: b2 :: t2 ∧ 128 ≤ b1 ∧ 128 ≤ b2 ∧ (128 : Int) ≤ r ∧
      DecodeRuneInString (b :: t) = (r, 3)) ∨
    (∃ b1 b2 b3 t3 r, t = b1 :: b2 :: b3 :: t3 ∧ 128 ≤ b1 ∧ 128 ≤ b2 ∧ 128 ≤ b3 ∧
      (128 : Int) ≤ r ∧ DecodeRuneInString (b :: t) = (r, 4)) := by
  generalize hd : DecodeRuneInString (b :: t) = d
  rcases first_cases b with ⟨h0, hf⟩ | ⟨h0, hf⟩ | ⟨h0, h0', hf⟩ | ⟨h0, hf⟩ | ⟨h0, h0', hf⟩ |
    ⟨h0, hf⟩ | ⟨h0, hf⟩ | ⟨h0, h0', hf⟩ | ⟨h0, hf⟩
  · omega
  · left; rw [← hd, decode_cons, hf]; rfl
  · rw [decode_cons, hf] at hd
    rcases t with _ | ⟨b1, _ | ⟨b2, _ | ⟨b3, t3⟩⟩⟩ <;> simp [acceptRanges] at hd <;>
      (try split_ifs at hd) <;> subst hd <;>
      first
      | (left; rfl)
      | (right; left; exact ⟨_, _, _, rfl, by omega, by omega, rfl⟩)
  · rw [decode_cons, hf] at hd
    rcases t with _ | ⟨b1, _ | ⟨b2, _ | ⟨b3, t3⟩⟩⟩ <;> simp [acceptRanges] at hd <;>
      (try split_ifs at hd) <;> subst hd <;>
      first
      | (left; rfl)
      | (right; right; left; exact ⟨_, _, _, _, rfl, by omega, by omega, by omega, rfl⟩)
  · rw [decode_cons, hf] at hd
    rcases t with _ | ⟨b1, _ | ⟨b2, _ | ⟨b3, t3⟩⟩⟩ <;> simp [acceptRanges] at hd <;>
      (try split_ifs at hd) <;> subst hd <;>
      first
      | (left; rfl)
      | (right; right; left; exact ⟨_, _, _, _, rfl, by omega, by omega, by omega, rfl⟩)
  · rw [decode_cons, hf] at hd
    rcases t with _ | ⟨b1, _ | ⟨b2, _ | ⟨b3, t3⟩⟩⟩ <;> simp [acceptRanges] at hd <;>
      (try split_ifs at hd) <;> subst hd <;>
      first
      | (left; rfl)
      | (right; right; left; exact ⟨_, _, _, _, rfl, by omega, by omega, by omega, rfl⟩)
  · rw [decode_cons, hf] at hd
    rcases t with _ | ⟨b1, _ | ⟨b2, _ | ⟨b3, t3⟩⟩⟩ <;> simp [acceptRanges] at hd <;>
      (try split_ifs at hd) <;> subst hd <;>
      first
      | (left; rfl)
      | (right; right; right; exact ⟨_, _, _, _, _, rfl, by omega, by omega, by omega, by omega, rfl⟩)
  · rw [decode_cons, hf] at hd
    rcases t with _ | ⟨b1, _ | ⟨b2, _ | ⟨b3, t3⟩⟩⟩ <;> simp [acceptRanges] at hd <;>
      (try split_ifs at hd) <;> subst hd <;>
      first
      | (left; rfl)
      | (right; right; right; exact ⟨_, _, _, _, _, rfl, by omega, by omega, by omega, by omega, rfl⟩)
  · rw [decode_cons, hf] at hd
    rcases t with _ | ⟨b1, _ | ⟨b2, _ | ⟨b3, t3⟩⟩⟩ <;> simp [acceptRanges] at hd <;>
      (try split_ifs at hd) <;> subst hd <;>
      first
      | (left; rfl)
      | (right; right; right; exact ⟨_, _, _, _, _, rfl, by omega, by omega, by omega, by omega, rfl⟩)

theorem decode_width_pos (b : Nat) (t : List Nat) :
    1 ≤ (DecodeRuneInString (b :: t)).2 := by
  by_cases h : b < 128
  · rw [decode_ascii b t h]
  · rcases decode_shape b t (by omega) with hd | ⟨_, _, _, _, _, _, hd⟩ |
      ⟨_, _, _, _, _, _, _, _, hd⟩ | ⟨_, _, _, _, _, _, _, _, _, _, hd⟩ <;> rw [hd] <;> simp

theorem decode_width_le (s : List Nat) : (DecodeRuneInString s).2 ≤ s.length := by
  rcases s with _ | ⟨b, t⟩
  · simp [DecodeRuneInString]
  · by_cases h : b < 128
    · rw [decode_ascii b t h]; simp
    · rcases decode_shape b t (by omega) with hd | ⟨_, _, _, ht, _, _, hd⟩ |
        ⟨_, _, _, _, ht, _, _, _, hd⟩ | ⟨_, _, _, _, _, ht, _, _, _, _, hd⟩ <;>
        rw [hd] <;> (try subst ht) <;> simp

/-- A rune wider than one byte is made of bytes that are not ASCII. -/
theorem decode_wide_bytes (s : List Nat) (h : 2 ≤ (DecodeRuneInString s).2) :
    ∀ x ∈ s.take (DecodeRuneInString s).2, 128 ≤ x := by
  rcases s with _ | ⟨b, t⟩
  · simp [DecodeRuneInString] at h
  · by_cases hb : b < 128
    · rw [decode_ascii b t hb] at h; simp at h
    · rcases decode_shape b t (by omega) with hd | ⟨_, _, _, ht, _, _, hd⟩ |
        ⟨_, _, _, _, ht, _, _, _, hd⟩ | ⟨_, _, _, _, _, ht, _, _, _, _, hd⟩
      · rw [hd] at h; simp at h
      all_goals
        rw [hd]; subst ht
        intro x hx
        simp only [List.take_succ_cons, List.take_zero, List.mem_cons, List.mem_nil_iff,
          or_false] at hx
        omega

/-- The decoded rune is a space or a tab exactly when the first byte is. -/
theorem isSpace_decode (b : Nat) (t : List Nat) :
    isSpace (DecodeRuneInString (b :: t)).1 = (b == 32 || b == 9) := by
  rw [Bool.eq_iff_iff]
  by_cases hb : b < 128
  · rw [decode_ascii b t hb]
    simp [isSpace]
    omega
  · rcases decode_shape b t (by omega) with hd | ⟨_, _, r, _, _, hr, hd⟩ |
        ⟨_, _, _, r, _, _, _, hr, hd⟩ | ⟨_, _, _, _, r, _, _, _, _, hr, hd⟩ <;>
      rw [hd] <;> simp [isSpace, RuneError] <;> omega

/-- Decoding does not look past an ASCII byte. -/
theorem decode_append_ascii (x : List Nat) (b : Nat) (y y' : List Nat) (hx : x ≠ [])
    (hb : b < 128) :
    DecodeRuneInString (x ++ b :: y) = DecodeRuneInString (x ++ b :: y') := by
  rcases x with _ | ⟨a, x⟩
  · exact absurd rfl hx
  have hb1 : ¬ 128 ≤ b := by omega
  have hb2 : b < 160 := by omega
  have hb3 : b < 144 := by omega
  simp only [List.cons_append]
  rcases first_cases a with ⟨h0, hf⟩ | ⟨h0, hf⟩ | ⟨h0, h0', hf⟩ | ⟨h0, hf⟩ | ⟨h0, h0', hf⟩ |
    ⟨h0, hf⟩ | ⟨h0, hf⟩ | ⟨h0, h0', hf⟩ | ⟨h0, hf⟩
  · rw [decode_ascii a _ h0, decode_ascii a _ h0]
  · rw [decode_cons, decode_cons, hf]; rfl
  all_goals
    rw [decode_cons, decode_cons, hf]
    rcases x with _ | ⟨a1, _ | ⟨a2, _ | ⟨a3, x⟩⟩⟩ <;>
      simp [acceptRanges, hb, hb1, hb2, hb3] <;>
      (try (split_ifs <;> first | rfl | omega))

/-! ## Slices and prefixes -/

theorem sliceFrom_ok (s : List Nat) (a : Nat) (h : a ≤ s.length) :
    sliceFrom s a = .ok (s.drop a) := by
  simp [sliceFrom, h]

theorem slice_ok (s : List Nat) (a b : Nat) (h1 : a ≤ b) (h2 : b ≤ s.length) :
    slice s a b = .ok ((s.drop a).take (b - a)) := by
  simp [slice, h1, h2]

theorem HasPrefix_nil_left (c : Nat) (p : List Nat) : HasPrefix [] (c :: p) = false := by
  simp [HasPrefix, List.isPrefixOf]

theorem HasPrefix_cons_single (b c : Nat) (t : List Nat) :
    HasPrefix (b :: t) [c] = decide (b = c) := by
  rw [Bool.eq_iff_iff]
  simp [HasPrefix, List.isPrefixOf]
  exact eq_comm

theorem HasPrefix_endPar (s : List Nat) :
    HasPrefix s endPar = true ↔ ∃ t, s = 10 :: 10 :: t := by
  rcases s with _ | ⟨a, _ | ⟨b, t⟩⟩ <;> simp [HasPrefix, endPar, List.isPrefixOf]
  constructor
  · rintro ⟨rfl, rfl⟩; exact ⟨rfl, rfl⟩
  · rintro ⟨rfl, rfl⟩; exact ⟨rfl, rfl⟩

theorem drop_succ_of_cons {α : Type} (xs : List α) (p : Nat) (b : α) (t : List α)
    (h : xs.drop p = b :: t) : xs.drop (p + 1) = t ∧ p < xs.length := by
  constructor
  · have := congrArg (List.drop 1) h
    simpa [List.drop_drop, Nat.add_comm] using this
  · by_contra hc
    rw [List.drop_eq_nil_of_le (by omega)] at h
    cases h

theorem nlSpan_le (s : List Nat) : nlSpan s ≤ s.length := by
  induction s with
  | nil => simp [nlSpan]
  | cons b t ih => simp only [nlSpan]; split <;> (simp only [List.length_cons]; omega)

theorem hashSpan_le (s : List Nat) : hashSpan s ≤ s.length := by
  induction s with
  | nil => simp [hashSpan]
  | cons b t ih => simp only [hashSpan]; split <;> (simp only [List.length_cons]; omega)

theorem spSpan_le (s : List Nat) : spSpan s ≤ s.length := by
  induction s with
  | nil => simp [spSpan]
  | cons b t ih => simp only [spSpan]; split <;> (simp only [List.length_cons]; omega)

theorem textLen_le (s : List Nat) : textLen s ≤ s.length := by
  induction s with
  | nil => simp [textLen]
  | cons b t ih => simp only [textLen]; split <;> (simp only [List.length_cons]; omega)

/-! ## The state functions on a lexer whose pending span is empty -/

theorem lexNewLineLoop_spec (n : Nat) (l : lexer) (hs : l.start = l.pos)
    (hp : l.pos ≤ l.input.length) (hn : l.input.length - l.pos < n) :
    lexNewLineLoop n l =
      .ok { l with pos := l.pos + nlSpan (l.input.drop l.pos),
                   start := l.pos + nlSpan (l.input.drop l.pos) } := by
  induction n generalizing l with
  | zero => omega
  | succ n ih =>
    rw [lexNewLineLoop, sliceFrom_ok _ _ hp]
    simp only
    rcases hd : l.input.drop l.pos with _ | ⟨b, t⟩
    · rw [HasPrefix_nil_left]
      cases l
      simp_all [nlSpan]
    · rw [HasPrefix_cons_single]
      obtain ⟨h1, h2⟩ := drop_succ_of_cons _ _ _ _ hd
      by_cases hb : b = 10
      · rw [if_pos (by simpa using hb)]
        rw [ih _ rfl (by simpa [ignore] using h2) (by simp [ignore]; omega)]
        simp [ignore, h1, nlSpan, hb]
        omega
      · rw [if_neg (by simpa using hb)]
        cases l
        simp_all [nlSpan]

theorem lexNewLine_spec (l : lexer) (hs : l.start = l.pos) (hp : l.pos ≤ l.input.length) :
    lexNewLine l =
      .ok ({ l with pos := l.pos + nlSpan (l.input.drop l.pos),
                    start := l.pos + nlSpan (l.input.drop l.pos) },
        some (if HasPrefix ((l.input.drop l.pos).drop (nlSpan (l.input.drop l.pos))) h1
          then .lexHeader else .lexText)) := by
  have hk := nlSpan_le (l.input.drop l.pos)
  rw [List.length_drop] at hk
  rw [lexNewLine, lexNewLineLoop_spec _ _ hs hp (by omega)]
  simp only
  rw [sliceFrom_ok _ _ (by omega)]
  simp only [List.drop_drop]
  split <;> rfl

theorem lexHeaderLoop_spec (n : Nat) (l : lexer)
    (hp : l.pos ≤ l.input.length) (hn : l.input.length - l.pos < n) :
    lexHeaderLoop n l = .ok { l with pos := l.pos + hashSpan (l.input.drop l.pos) } := by
  induction n generalizing l with
  | zero => omega
  | succ n ih =>
    rw [lexHeaderLoop, sliceFrom_ok _ _ hp]
    simp only
    rcases hd : l.input.drop l.pos with _ | ⟨b, t⟩
    · rw [h1, HasPrefix_nil_left]
      simp [hashSpan]
    · rw [h1, HasPrefix_cons_single]
      obtain ⟨h1, h2⟩ := drop_succ_of_cons _ _ _ _ hd
      by_cases hb : b = 35
      · rw [if_pos (by simpa using hb)]
        rw [ih _ (by simpa using h2) (by simp; omega)]
        simp [h1, hashSpan, hb]
        omega
      · rw [if_neg (by simpa using hb)]
        simp [hashSpan, hb]

theorem lexHeader_spec (l : lexer) (hs : l.start = l.pos) (hp : l.pos < l.input.length)
    (hi : l.items = []) :
    lexHeader l =
      .ok ({ l with pos := l.pos + (1 + hashSpan (l.input.drop (l.pos + 1))),
                    start := l.pos + (1 + hashSpan (l.input.drop (l.pos + 1))),
                    items := [⟨.itemH1, (l.input.drop l.pos).take
                      (1 + hashSpan (l.input.drop (l.pos + 1)))⟩] },
        some .lexHeaderText) := by
  have hk := hashSpan_le (l.input.drop (l.pos + 1))
  rw [List.length_drop] at hk
  rw [lexHeader, lexHeaderLoop_spec _ _ (by simp [h1]; omega) (by simp [h1]; omega)]
  simp only [h1, List.length_singleton]
  rw [emit, slice_ok _ _ _ (by simp; omega) (by simp; omega)]
  simp only [hi, hs, itemsCap]
  simp [Nat.add_assoc]

theorem decode_ne_eof (s : List Nat) : (DecodeRuneInString s).1 ≠ eof := by
  rcases s with _ | ⟨b, t⟩
  · simp [DecodeRuneInString, RuneError, eof]
  · by_cases hb : b < 128
    · rw [decode_ascii b t hb]; simp [eof]
    · rcases decode_shape b t (by omega) with hd | ⟨_, _, r, _, _, hr, hd⟩ |
          ⟨_, _, _, r, _, _, _, hr, hd⟩ | ⟨_, _, _, _, r, _, _, _, _, hr, hd⟩ <;>
        rw [hd] <;> simp [RuneError, eof] <;> omega

theorem textLen_of_prefix (s : List Nat) (h : HasPrefix s endPar = true) : textLen s = 0 := by
  rcases s with _ | ⟨b, t⟩
  · rfl
  · simp [textLen, h]

theorem textLen_cons (b : Nat) (t : List Nat) (h : ¬ HasPrefix (b :: t) endPar = true) :
    textLen (b :: t) = textLen t + 1 := by
  simp [textLen, h]

/-- Bytes that are not newlines are all passed over. -/
theorem textLen_skip (w : Nat) (s : List Nat) (hw : w ≤ s.length)
    (h : ∀ x ∈ s.take w, x ≠ 10) : textLen s = w + textLen (s.drop w) := by
  induction w generalizing s with
  | zero => simp
  | succ w ih =>
    rcases s with _ | ⟨b, t⟩
    · simp at hw
    · have hb : b ≠ 10 := h b (by simp)
      have hnp : ¬ HasPrefix (b :: t) endPar = true := by
        rw [HasPrefix_endPar]; rintro ⟨u, hu⟩; injection hu with h1 _; exact hb h1
      rw [textLen_cons b t hnp, List.drop_succ_cons,
        ih t (by simpa using hw) (fun x hx => h x (by simp [hx]))]
      omega

/-- One rune read by `lexText` never jumps over a paragraph separator. -/
theorem textLen_advance (s : List Nat) (hne : s ≠ [])
    (hnp : ¬ HasPrefix s endPar = true) :
    textLen s = (DecodeRuneInString s).2 + textLen (s.drop (DecodeRuneInString s).2) := by
  rcases s with _ | ⟨b, t⟩
  · exact absurd rfl hne
  · by_cases hw : 2 ≤ (DecodeRuneInString (b :: t)).2
    · apply textLen_skip _ _ (decode_width_le _)
      intro x hx
      have := decode_wide_bytes _ hw x hx
      omega
    · have h1 : (DecodeRuneInString (b :: t)).2 = 1 := by
        have := decode_width_pos b t; omega
      rw [h1, textLen_cons b t hnp]
      simp; omega

theorem lexTextLoop_spec (n : Nat) (l : lexer) (hs : l.start ≤ l.pos)
    (hp : l.pos ≤ l.input.length) (hi : l.items = []) (hn : l.input.length - l.pos < n) :
    ∃ w, lexTextLoop n l =
      .ok ({ l with pos := l.pos + textLen (l.input.drop l.pos),
                    start := l.pos + textLen (l.input.drop l.pos),
                    width := w,
                    items :=
                      (if l.start < l.pos + textLen (l.input.drop l.pos) then
                        [⟨.itemText, (l.input.drop l.start).take
                          (l.pos + textLen (l.input.drop l.pos) - l.start)⟩]
                       else []) ++
                      (if l.pos + textLen (l.input.drop l.pos) < l.input.length then []
                       else [⟨.itemEOF, []⟩]) },
        if l.pos + textLen (l.input.drop l.pos) < l.input.length then some .lexNewLine
        else none) := by
  induction n generalizing l with
  | zero => omega
  | succ n ih =>
    rw [lexTextLoop, sliceFrom_ok _ _ hp]
    simp only
    by_cases hpre : HasPrefix (l.input.drop l.pos) endPar = true
    · rw [if_pos hpre, textLen_of_prefix _ hpre]
      have hlt : l.pos < l.input.length := by
        obtain ⟨t, ht⟩ := (HasPrefix_endPar _).1 hpre
        exact (drop_succ_of_cons _ _ _ _ ht).2
      by_cases hgt : l.pos > l.start
      · refine ⟨l.width, ?_⟩
        rw [if_pos hgt, emit, slice_ok _ _ _ hs hp]
        simp [hi, itemsCap, hlt, hgt]
      · refine ⟨l.width, ?_⟩
        rw [if_neg hgt]
        have : l.start = l.pos := by omega
        cases l
        simp_all
    · rw [if_neg hpre]
      by_cases hge : l.pos ≥ l.input.length
      · refine ⟨0, ?_⟩
        have hpe : l.pos = l.input.length := by omega
        have hnil : l.input.drop l.pos = [] := List.drop_eq_nil_of_le hge
        rw [next, if_pos hge]
        simp only [if_true, lexTextEOF]
        by_cases hgt : l.pos > l.start
        · rw [if_pos hgt, emit, slice_ok _ _ _ hs hp]
          have hgt' : l.start < l.input.length := by omega
          simp only [hi, itemsCap]
          simp [emit, slice, hnil, textLen, hgt', hpe, itemsCap]
        · rw [if_neg hgt]
          have : l.start = l.pos := by omega
          simp [emit, slice, hp, hnil, textLen, hgt, hpe, this, hi, itemsCap]
      · rw [next, if_neg hge, sliceFrom_ok _ _ hp]
        simp only
        rw [if_neg (decode_ne_eof _)]
        have hne : l.input.drop l.pos ≠ [] := by
          intro h
          have := congrArg List.length h
          simp at this; omega
        have hw1 : 1 ≤ (DecodeRuneInString (l.input.drop l.pos)).2 := by
          rcases hd : l.input.drop l.pos with _ | ⟨b, t⟩
          · exact absurd hd hne
          · exact decode_width_pos b t
        have hw2 := decode_width_le (l.input.drop l.pos)
        rw [List.length_drop] at hw2
        obtain ⟨w, hw⟩ := ih { l with width := (DecodeRuneInString (l.input.drop l.pos)).2,
                                      pos := l.pos + (DecodeRuneInString (l.input.drop l.pos)).2 }
          (by simp; omega) (by simp; omega) (by simpa using hi) (by simp; omega)
        refine ⟨w, ?_⟩
        rw [hw, textLen_advance _ hne hpre]
        simp [List.drop_drop, Nat.add_assoc]

theorem Index_toNat_le (s sep : List Nat) : (Index s sep).toNat ≤ s.length := by
  induction s with
  | nil => simp only [Index]; split <;> simp
  | cons b t ih =>
    simp only [Index]
    split
    · simp
    · split
      · simp
      · simp only [List.length_cons]; omega

theorem lexHeaderTextLoop_spec (n : Nat) (l : lexer) (hs : l.start = l.pos)
    (hp : l.pos ≤ l.input.length) (hn : l.input.length - l.pos < n) :
    lexHeaderTextLoop n l =
      .ok { l with
        start := l.pos + spSpan (l.input.drop l.pos),
        width := (DecodeRuneInString
          ((l.input.drop l.pos).drop (spSpan (l.input.drop l.pos)))).2,
        pos := l.pos + spSpan (l.input.drop l.pos) + (DecodeRuneInString
          ((l.input.drop l.pos).drop (spSpan (l.input.drop l.pos)))).2 } := by
  induction n generalizing l with
  | zero => omega
  | succ n ih =>
    rw [lexHeaderTextLoop, next]
    by_cases hge : l.pos ≥ l.input.length
    · have hnil : l.input.drop l.pos = [] := List.drop_eq_nil_of_le hge
      rw [if_pos hge]
      simp [hnil, spSpan, DecodeRuneInString, isSpace, eof, hs]
    · rw [if_neg hge, sliceFrom_ok _ _ hp]
      simp only
      rcases hd : l.input.drop l.pos with _ | ⟨b, t⟩
      · have := congrArg List.length hd
        simp at this; omega
      · obtain ⟨h1, h2⟩ := drop_succ_of_cons _ _ _ _ hd
        rw [isSpace_decode]
        by_cases hb : b = 32 ∨ b = 9
        · have hb' : (b == 32 || b == 9) = true := by simpa using hb
          have hlt : b < 128 := by omega
          rw [if_pos hb', decode_ascii b t hlt]
          rw [ih _ (by simp [ignore]) (by simpa [ignore] using h2) (by simp [ignore]; omega)]
          simp [ignore, h1, spSpan, hb, Nat.add_assoc, Nat.add_comm 1]
        · have hb' : ¬ (b == 32 || b == 9) = true := by simpa using hb
          rw [if_neg hb']
          simp [spSpan, hb, hs]

theorem headTextLen_le (s : List Nat) : headTextLen s ≤ s.length := by
  have h1 := decode_width_le s
  have h2 := Index_toNat_le (s.drop (DecodeRuneInString s).2) [10]
  rw [List.length_drop] at h2
  unfold headTextLen
  omega

theorem headTextLen_pos (s : List Nat) : 0 < headTextLen s ↔ 0 < (DecodeRuneInString s).2 := by
  rcases s with _ | ⟨b, t⟩
  · simp [headTextLen, DecodeRuneInString, Index, List.isPrefixOf]
  · have := decode_width_pos b t
    unfold headTextLen
    omega

theorem lexHeaderText_spec (l : lexer) (hs : l.start = l.pos) (hp : l.pos ≤ l.input.length)
    (hi : l.items = []) :
    ∃ w, lexHeaderText l =
      .ok ({ l with
        pos := l.pos + (spSpan (l.input.drop l.pos) +
          headTextLen ((l.input.drop l.pos).drop (spSpan (l.input.drop l.pos)))),
        start := l.pos + (spSpan (l.input.drop l.pos) +
          headTextLen ((l.input.drop l.pos).drop (spSpan (l.input.drop l.pos)))),
        width := w,
        items :=
          if 0 < headTextLen ((l.input.drop l.pos).drop (spSpan (l.input.drop l.pos))) then
            [⟨.itemText, ((l.input.drop l.pos).drop (spSpan (l.input.drop l.pos))).take
              (headTextLen ((l.input.drop l.pos).drop (spSpan (l.input.drop l.pos))))⟩]
          else [] },
        some .lexNewLine) := by
  have hc := spSpan_le (l.input.drop l.pos)
  have hw := decode_width_le ((l.input.drop l.pos).drop (spSpan (l.input.drop l.pos)))
  have hk := headTextLen_le ((l.input.drop l.pos).drop (spSpan (l.input.drop l.pos)))
  have hpos := headTextLen_pos ((l.input.drop l.pos).drop (spSpan (l.input.drop l.pos)))
  simp only [List.length_drop] at hc hw hk
  refine ⟨(DecodeRuneInString ((l.input.drop l.pos).drop (spSpan (l.input.drop l.pos)))).2, ?_⟩
  rw [lexHeaderText, lexHeaderTextLoop_spec _ _ hs hp (by omega)]
  simp only
  rw [sliceFrom_ok _ _ (by omega)]
  simp only [List.drop_drop] at hpos hk ⊢
  generalize hI : Index (List.drop (l.pos + spSpan (List.drop l.pos l.input) +
    (DecodeRuneInString (List.drop (l.pos + spSpan (List.drop l.pos l.input)) l.input)).2)
      l.input) [10] = i
  have hkd : headTextLen (List.drop (l.pos + spSpan (List.drop l.pos l.input)) l.input) =
      (DecodeRuneInString (List.drop (l.pos + spSpan (List.drop l.pos l.input)) l.input)).2 +
        i.toNat := by
    simp only [headTextLen, List.drop_drop, hI]
  rw [hkd] at hk hpos ⊢
  by_cases hi0 : i > 0
  · rw [if_pos hi0]
    simp only
    rw [if_pos (by omega), emit, slice_ok _ _ _ (by simp; omega) (by simp; omega)]
    simp only [hi, itemsCap]
    have : 0 < (DecodeRuneInString
        (List.drop (l.pos + spSpan (List.drop l.pos l.input)) l.input)).2 + i.toNat := by omega
    simp [this, Nat.add_assoc]
    omega
  · rw [if_neg hi0]
    have hi1 : i.toNat = 0 := by omega
    simp only [hi1, Nat.add_zero] at hk hpos ⊢
    by_cases hw0 : 0 < (DecodeRuneInString
        (List.drop (l.pos + spSpan (List.drop l.pos l.input)) l.input)).2
    · rw [if_pos (by simp; omega), emit, slice_ok _ _ _ (by simp) (by simp; omega)]
      simp only [hi, itemsCap]
      simp [hw0, Nat.add_assoc]
      omega
    · rw [if_neg (by simp; omega)]
      have hw1 : (DecodeRuneInString
        (List.drop (l.pos + spSpan (List.drop l.pos l.input)) l.input)).2 = 0 := by omega
      simp [hw1, hi]

/-! ## One state-function call, as a function of the unread input -/

theorem stepLen_le (f : stateFn) (s : List Nat) : stepLen f s ≤ s.length := by
  cases f
  · exact nlSpan_le s
  · exact textLen_le s
  · rcases s with _ | ⟨b, t⟩
    · simp [stepLen]
    · have := hashSpan_le t
      simp [stepLen]; omega
  · have h1 := spSpan_le s
    have h2 := headTextLen_le (s.drop (spSpan s))
    rw [List.length_drop] at h2
    simp only [stepLen]; omega

/-- A state function called with an empty pending span and an empty buffer
returns; its effect is given by `stepItems`, `stepLen` and `stepNext` on the
unread input.  `lexHeader` needs one unread byte. -/
theorem callState_spec (f : stateFn) (l : lexer) (hs : l.start = l.pos)
    (hp : l.pos ≤ l.input.length) (hi : l.items = [])
    (hv : f = .lexHeader → l.pos < l.input.length) :
    ∃ w, callState f l =
      .ok ({ l with pos := l.pos + stepLen f (l.input.drop l.pos),
                    start := l.pos + stepLen f (l.input.drop l.pos),
                    width := w,
                    items := stepItems f (l.input.drop l.pos) },
        stepNext f (l.input.drop l.pos)) := by
  cases f
  · refine ⟨l.width, ?_⟩
    rw [callState, lexNewLine_spec l hs hp]
    simp [stepLen, stepItems, stepNext, hi]
  · obtain ⟨w, hw⟩ := lexTextLoop_spec (l.input.length + 1) l (by omega) hp hi (by omega)
    refine ⟨w, ?_⟩
    have hk := textLen_le (l.input.drop l.pos)
    rw [List.length_drop] at hk
    rw [callState, lexText, hw]
    simp only [stepLen, stepItems, stepNext, hs, List.length_drop]
    have e1 : (l.pos < l.pos + textLen (l.input.drop l.pos)) ↔
        0 < textLen (l.input.drop l.pos) := by omega
    have e2 : (l.pos + textLen (l.input.drop l.pos) < l.input.length) ↔
        textLen (l.input.drop l.pos) < l.input.length - l.pos := by omega
    simp only [e1, e2, Nat.add_sub_cancel_left]
  · have hlt := hv rfl
    refine ⟨l.width, ?_⟩
    rw [callState, lexHeader_spec l hs hlt hi]
    rcases hd : l.input.drop l.pos with _ | ⟨b, t⟩
    · have := congrArg List.length hd
      simp at this; omega
    · obtain ⟨h1, _⟩ := drop_succ_of_cons _ _ _ _ hd
      simp [stepLen, stepItems, stepNext, h1]
  · obtain ⟨w, hw⟩ := lexHeaderText_spec l hs hp hi
    refine ⟨w, ?_⟩
    rw [callState, hw]
    simp [stepLen, stepItems, stepNext]

/-! ## The token stream as a function of the unread input -/

theorem nlSpan_drop_head (s : List Nat) (t : List Nat) : s.drop (nlSpan s) ≠ 10 :: t := by
  induction s with
  | nil => simp [nlSpan]
  | cons b u ih =>
    by_cases hb : b = 10
    · simpa [nlSpan, hb] using ih
    · simp [nlSpan, hb]

theorem HasPrefix_of_textLen_zero (s : List Nat) (h : textLen s = 0) (hne : s ≠ []) :
    HasPrefix s endPar = true := by
  rcases s with _ | ⟨b, t⟩
  · exact absurd rfl hne
  · by_contra hc
    rw [textLen_cons b t hc] at h
    omega

theorem step_decreasing (f : stateFn) (s : List Nat) (g : stateFn)
    (h : stepNext f s = some g) : mu g (s.drop (stepLen f s)) < mu f s := by
  cases f
  · have hk := nlSpan_le s
    simp only [stepNext, Option.some.injEq] at h
    simp only [stepLen]
    split at h
    · subst h; simp only [mu, List.length_drop]; omega
    · subst h
      have : ¬ HasPrefix (s.drop (nlSpan s)) endPar = true := by
        rw [HasPrefix_endPar]; rintro ⟨t, ht⟩; exact nlSpan_drop_head s _ ht
      simp only [mu, List.length_drop, this]
      simp; omega
  · simp only [stepNext] at h
    split at h
    · rename_i hlt
      injection h with h; subst h
      simp only [stepLen, mu, List.length_drop]
      by_cases hk : textLen s = 0
      · have hne : s ≠ [] := by rintro rfl; simp [textLen] at hlt
        rw [HasPrefix_of_textLen_zero s hk hne]
        simp; omega
      · split <;> omega
    · cases h
  · rcases s with _ | ⟨b, t⟩
    · simp [stepNext] at h
    · simp only [stepNext, Option.some.injEq] at h
      subst h
      have := hashSpan_le t
      simp only [stepLen, mu, List.length_drop, List.length_cons]
      omega
  · simp only [stepNext, Option.some.injEq] at h
    subst h
    simp only [stepLen, mu, List.length_drop]
    omega

/-- The tokens the scan produces from state `f` on the unread input `s`, one
state-function call after the other, up to the nil state. -/
def toks (f : stateFn) (s : List Nat) : List item :=
  stepItems f s ++
    match _h : stepNext f s with
    | none => []
    | some g => toks g (s.drop (stepLen f s))
termination_by mu f s
decreasing_by exact step_decreasing f s g _h

theorem toks_eq (f : stateFn) (s : List Nat) :
    toks f s = stepItems f s ++
      (match stepNext f s with
       | none => []
       | some g => toks g (s.drop (stepLen f s))) := by
  rw [toks]
  split <;> rename_i h <;> simp [h]

theorem toks_of_none (f : stateFn) (s : List Nat) (h : stepNext f s = none) :
    toks f s = stepItems f s := by
  rw [toks_eq, h]; simp

theorem toks_of_some (f g : stateFn) (s : List Nat) (h : stepNext f s = some g) :
    toks f s = stepItems f s ++ toks g (s.drop (stepLen f s)) := by
  rw [toks_eq, h]

theorem Valid_step (f g : stateFn) (s : List Nat) (h : stepNext f s = some g) :
    Valid g (s.drop (stepLen f s)) := by
  intro hg
  subst hg
  cases f
  · simp only [stepNext, Option.some.injEq] at h
    simp only [stepLen]
    split at h
    · rename_i hp
      intro hnil
      rw [hnil, h1, HasPrefix_nil_left] at hp
      cases hp
    · cases h
  · simp only [stepNext] at h
    split at h <;> cases h
  · rcases s with _ | ⟨b, t⟩ <;> simp [stepNext] at h
  · simp [stepNext] at h

theorem calls_le (f : stateFn) (s : List Nat) : calls f s ≤ 3 := by
  cases f <;> simp only [calls] <;> (try split) <;> omega

theorem need_step (f : stateFn) (s : List Nat) :
    need (stepItems f s) (stepNext f s) (s.drop (stepLen f s)) < calls f s := by
  cases f
  · have : ¬ HasPrefix (s.drop (nlSpan s)) endPar = true := by
      rw [HasPrefix_endPar]; rintro ⟨t, ht⟩; exact nlSpan_drop_head s _ ht
    by_cases hp : HasPrefix (s.drop (nlSpan s)) h1 = true <;>
      simp [stepItems, stepNext, stepLen, need, calls, hp, this]
  · simp only [stepItems, stepNext, stepLen, calls]
    by_cases hk : 0 < textLen s
    · simp only [hk, if_true, List.singleton_append, need]
      split <;> omega
    · by_cases hl : textLen s < s.length
      · have hne : s ≠ [] := by rintro rfl; simp at hl
        rw [HasPrefix_of_textLen_zero s (by omega) hne]
        simp [hk, hl, need, calls]
      · simp only [hk, hl, if_false, List.nil_append, need]
        split <;> omega
  · rcases s with _ | ⟨b, t⟩ <;> simp [stepItems, stepNext, need, calls]
  · simp only [stepItems, stepNext, stepLen, calls]
    split <;> simp [need, calls]

/-! ## Lexers between two state-function calls -/

/-- The invariant of a lexer between two state-function calls: nothing is
pending between `start` and `pos`, the cursor is inside the input, and
`lexHeader` has a byte to read. -/
structure Ready (l : lexer) : Prop where
  hs : l.start = l.pos
  hp : l.pos ≤ l.input.length
  hv : ∀ f, l.state = some f → Valid f (l.input.drop l.pos)

/-- All tokens a lexer will still deliver: the buffered ones, then those of
the scan of the unread input. -/
def pending (l : lexer) : List item :=
  l.items ++
    match l.state with
    | none => []
    | some f => toks f (l.input.drop l.pos)

theorem Ready_lex (name input : List Nat) : Ready (lex name input) := by
  refine ⟨rfl, Nat.zero_le _, ?_⟩
  intro f hf hh
  subst hh
  simp [lex] at hf

theorem pending_lex (name input : List Nat) :
    pending (lex name input) = toks .lexNewLine input := by
  simp [pending, lex]

/-- One call of the `nextItem` loop with enough budget delivers the first
pending token and leaves the others pending. -/
theorem nextItemLoop_spec (n : Nat) (l : lexer) (it : item) (rest : List item)
    (hr : Ready l) (hpend : pending l = it :: rest)
    (hn : need l.items l.state (l.input.drop l.pos) < n) :
    ∃ l1, nextItemLoop n l = .ok (it, l1) ∧ Ready l1 ∧ pending l1 = rest ∧
      l1.input = l.input ∧ l1.name = l.name := by
  induction n generalizing l with
  | zero => omega
  | succ n ih =>
    rw [nextItemLoop]
    rcases hq : l.items with _ | ⟨x, q⟩
    · rcases hst : l.state with _ | f
      · simp [pending, hq, hst] at hpend
      · simp only
        have hv : f = .lexHeader → l.pos < l.input.length := by
          intro hf
          have := hr.hv f hst hf
          by_contra hc
          exact this (List.drop_eq_nil_of_le (by omega))
        obtain ⟨w, hw⟩ := callState_spec f l hr.hs hr.hp hq hv
        rw [hw]
        simp only
        have hle := stepLen_le f (l.input.drop l.pos)
        have hp := hr.hp
        rw [List.length_drop] at hle
        apply (fun h => (ih _ ?_ ?_ ?_).imp h)
        · rintro l1 ⟨h1, h2, h3, h4, h5⟩
          exact ⟨h1, h2, h3, h4, h5⟩
        · refine ⟨rfl, by simp; omega, ?_⟩
          intro g hg
          simp only [List.drop_drop]
          simpa [List.drop_drop] using Valid_step f g _ hg
        · rw [← hpend]
          simp only [pending, hq, hst, List.nil_append]
          rw [toks_eq f]
          simp only [List.drop_drop]
        · have := need_step f (l.input.drop l.pos)
          simp only [hq, hst, need] at hn
          simp only [List.drop_drop] at this ⊢
          omega
    · simp only
      simp only [pending, hq, List.cons_append, List.cons.injEq] at hpend
      obtain ⟨rfl, hrest⟩ := hpend
      exact ⟨_, rfl, ⟨hr.hs, hr.hp, hr.hv⟩, hrest, rfl, rfl⟩

theorem need_le (q : List item) (st : Option stateFn) (s : List Nat) : need q st s ≤ 3 := by
  unfold need
  split
  · omega
  · omega
  · exact calls_le _ _

/-- On a lexer between two calls, `nextItem` delivers the first pending token. -/
theorem nextItem_spec (l : lexer) (it : item) (rest : List item)
    (hr : Ready l) (hpend : pending l = it :: rest) :
    ∃ l1, nextItem l = .ok (it, l1) ∧ Ready l1 ∧ pending l1 = rest ∧
      l1.input = l.input ∧ l1.name = l.name := by
  have := need_le l.items l.state (l.input.drop l.pos)
  exact nextItemLoop_spec 4 l it rest hr hpend (by omega)

/-- Every token of one state-function call is a `Text` or `H1` token, except
for the `EOF` token that comes last and only with the nil state. -/
theorem stepItems_shape (f : stateFn) (s : List Nat) (hv : Valid f s) :
    ∃ body, (∀ x ∈ body, x.typ = .itemText ∨ x.typ = .itemH1) ∧
      body.length ≤ stepLen f s ∧
      stepItems f s = body ++ (if stepNext f s = none then [⟨.itemEOF, []⟩] else []) := by
  cases f
  · exact ⟨[], by simp, by simp, by simp [stepItems, stepNext]⟩
  · by_cases hk : 0 < textLen s
    · refine ⟨[⟨.itemText, s.take (textLen s)⟩], by simp, by simp [stepLen]; omega, ?_⟩
      by_cases hl : textLen s < s.length <;> simp [stepItems, stepNext, hk, hl]
    · refine ⟨[], by simp, by simp, ?_⟩
      by_cases hl : textLen s < s.length <;> simp [stepItems, stepNext, hk, hl]
  · rcases s with _ | ⟨b, t⟩
    · exact absurd rfl (hv rfl)
    · exact ⟨[⟨.itemH1, (b :: t).take (1 + hashSpan t)⟩], by simp, by simp [stepLen],
        by simp [stepItems, stepNext]⟩
  · by_cases hk : 0 < headTextLen (s.drop (spSpan s))
    · exact ⟨[⟨.itemText, (s.drop (spSpan s)).take (headTextLen (s.drop (spSpan s)))⟩],
        by simp, by simp [stepLen]; omega, by simp [stepItems, stepNext, hk]⟩
    · exact ⟨[], by simp, by simp, by simp [stepItems, stepNext, hk]⟩

/-- The token stream of a scan: `Text` and `H1` tokens, at most one per byte
of the unread input, then one `EOF` token with empty text. -/
theorem toks_shape (n : Nat) (f : stateFn) (s : List Nat) (hn : mu f s < n) (hv : Valid f s) :
    ∃ body, (∀ x ∈ body, x.typ = .itemText ∨ x.typ = .itemH1) ∧
      body.length ≤ s.length ∧ toks f s = body ++ [⟨.itemEOF, []⟩] := by
  induction n generalizing f s with
  | zero => omega
  | succ n ih =>
    obtain ⟨b1, hb1, hl1, he1⟩ := stepItems_shape f s hv
    have hle := stepLen_le f s
    rcases hnx : stepNext f s with _ | g
    · refine ⟨b1, hb1, by omega, ?_⟩
      rw [toks_of_none f s hnx, he1, hnx]
      simp
    · have hdec := step_decreasing f s g hnx
      obtain ⟨b2, hb2, hl2, he2⟩ := ih g (s.drop (stepLen f s)) (by omega) (Valid_step f g s hnx)
      rw [List.length_drop] at hl2
      refine ⟨b1 ++ b2, ?_, by simp; omega, ?_⟩
      · intro x hx
        rcases List.mem_append.1 hx with h | h
        · exact hb1 x h
        · exact hb2 x h
      · rw [toks_of_some f g s hnx, he1, hnx, he2]
        simp

theorem Valid_lexNewLine (s : List Nat) : Valid .lexNewLine s := by
  intro h; cases h

theorem toks_lexNewLine_shape (s : List Nat) :
    ∃ body, (∀ x ∈ body, x.typ = .itemText ∨ x.typ = .itemH1) ∧
      body.length ≤ s.length ∧ toks .lexNewLine s = body ++ [⟨.itemEOF, []⟩] :=
  toks_shape _ .lexNewLine s (Nat.lt_succ_self _) (Valid_lexNewLine s)

/-- The loop of `collect` gathers the pending tokens up to the first terminal
one, given one unit of budget per token. -/
theorem collectLoop_spec (body : List item) (t : item) (n : Nat) (l : lexer) (acc : List item)
    (hr : Ready l) (hpend : pending l = body ++ [t])
    (hb : ∀ x ∈ body, x.typ = .itemText ∨ x.typ = .itemH1)
    (ht : t.typ = .itemEOF ∨ t.typ = .itemError) (hn : body.length < n) :
    collectLoop n l acc = .ok (acc ++ body ++ [t]) := by
  induction body generalizing n l acc with
  | nil =>
    rcases n with _ | n
    · omega
    · obtain ⟨l1, h1, _⟩ := nextItem_spec l t [] hr (by simpa using hpend)
      rw [collectLoop, h1]
      simp [ht]
  | cons x body ih =>
    rcases n with _ | n
    · omega
    · obtain ⟨l1, h1, hr1, hp1, _⟩ := nextItem_spec l x (body ++ [t]) hr (by simpa using hpend)
      have hx := hb x (by simp)
      have hx' : ¬ (x.typ = .itemEOF ∨ x.typ = .itemError) := by
        rcases hx with h | h <;> rw [h] <;> simp
      rw [collectLoop, h1]
      simp only [hx', if_false]
      rw [ih n l1 (acc ++ [x]) hr1 hp1 (fun y hy => hb y (by simp [hy]))
        (by simp at hn; omega)]
      simp

/-- The test helper `collect` returns, and what it returns is the token stream
of the scan from `lexNewLine` on the whole input. -/
theorem collect_eq_toks (name input : List Nat) :
    collect name input = .ok (toks .lexNewLine input) := by
  obtain ⟨body, hb, hl, he⟩ := toks_lexNewLine_shape input
  rw [collect, collectLoop_spec body ⟨.itemEOF, []⟩ _ _ [] (Ready_lex name input)
    (by rw [pending_lex, he]) hb (Or.inl rfl) (by omega), he]
  simp

/-! ## The token stream, state by state -/

theorem toks_lexNewLine (s : List Nat) :
    toks .lexNewLine s =
      toks (if HasPrefix (s.drop (nlSpan s)) h1 then .lexHeader else .lexText)
        (s.drop (nlSpan s)) := by
  rw [toks_of_some .lexNewLine _ s rfl]
  simp [stepItems, stepLen]

theorem toks_lexText (s : List Nat) :
    toks .lexText s =
      (if 0 < textLen s then [⟨.itemText, s.take (textLen s)⟩] else []) ++
        (if textLen s < s.length then toks .lexNewLine (s.drop (textLen s))
         else [⟨.itemEOF, []⟩]) := by
  by_cases hl : textLen s < s.length
  · rw [toks_of_some .lexText .lexNewLine s (by simp [stepNext, hl])]
    simp [stepItems, stepLen, hl]
  · rw [toks_of_none .lexText s (by simp [stepNext, hl])]
    simp [stepItems, hl]

theorem toks_lexHeader (b : Nat) (t : List Nat) :
    toks .lexHeader (b :: t) =
      ⟨.itemH1, b :: t.take (hashSpan t)⟩ :: toks .lexHeaderText (t.drop (hashSpan t)) := by
  rw [toks_of_some .lexHeader .lexHeaderText (b :: t) rfl]
  simp [stepItems, stepLen, Nat.add_comm 1]

theorem toks_lexHeaderText (s : List Nat) :
    toks .lexHeaderText s =
      (if 0 < headTextLen (s.drop (spSpan s)) then
        [⟨.itemText, (s.drop (spSpan s)).take (headTextLen (s.drop (spSpan s)))⟩]
       else []) ++
      toks .lexNewLine ((s.drop (spSpan s)).drop (headTextLen (s.drop (spSpan s)))) := by
  rw [toks_of_some .lexHeaderText .lexNewLine s rfl]
  simp [stepItems, stepLen, List.drop_drop]

theorem toks_lexNewLine_nl (s : List Nat) :
    toks .lexNewLine (10 :: s) = toks .lexNewLine s := by
  rw [toks_lexNewLine (10 :: s), toks_lexNewLine s]
  simp [nlSpan]

/-- Leading newlines are skipped without a token. -/
theorem toks_lexNewLine_replicate (n : Nat) (s : List Nat) :
    toks .lexNewLine (List.replicate n 10 ++ s) = toks .lexNewLine s := by
  induction n with
  | zero => simp
  | succ n ih => rw [List.replicate_succ, List.cons_append, toks_lexNewLine_nl, ih]

theorem toks_lexNewLine_nil : toks .lexNewLine [] = [⟨.itemEOF, []⟩] := by
  rw [toks_lexNewLine]
  simp [nlSpan, h1, HasPrefix_nil_left, toks_lexText, textLen]

/-- Input that starts with a byte other than newline and `#` is scanned by
`lexText`. -/
theorem toks_lexNewLine_text (b : Nat) (t : List Nat) (h10 : b ≠ 10) (h35 : b ≠ 35) :
    toks .lexNewLine (b :: t) = toks .lexText (b :: t) := by
  rw [toks_lexNewLine]
  simp [nlSpan, h10, h1, HasPrefix_cons_single, h35]

theorem toks_lexNewLine_hash (t : List Nat) :
    toks .lexNewLine (35 :: t) = toks .lexHeader (35 :: t) := by
  rw [toks_lexNewLine]
  simp [nlSpan, h1, HasPrefix_cons_single]

/-! ## Paragraphs -/

theorem infix_of_HasPrefix (s : List Nat) (h : HasPrefix s endPar = true) : endPar <:+: s := by
  obtain ⟨t, rfl⟩ := (HasPrefix_endPar s).1 h
  exact ⟨[], t, rfl⟩

theorem not_infix_tail (b : Nat) (p : List Nat) (h : ¬ endPar <:+: b :: p) : ¬ endPar <:+: p := by
  rintro ⟨u, v, huv⟩
  exact h ⟨b :: u, v, by simp [← huv]⟩

/-- Without two newline bytes in a row, `lexText` reads to the end. -/
theorem textLen_no_endPar (p : List Nat) (h : ¬ endPar <:+: p) : textLen p = p.length := by
  induction p with
  | nil => rfl
  | cons b p ih =>
    rw [textLen_cons b p (fun hp => h (infix_of_HasPrefix _ hp)), ih (not_infix_tail b p h)]
    rfl

/-- A paragraph followed by two newline bytes is read up to these. -/
theorem textLen_append_endPar (p s : List Nat) (h : ¬ endPar <:+: p)
    (hl : p.getLast? ≠ some 10) : textLen (p ++ 10 :: 10 :: s) = p.length := by
  induction p with
  | nil => simp [textLen, HasPrefix, endPar, List.isPrefixOf]
  | cons b p ih =>
    have hnp : ¬ HasPrefix (b :: (p ++ 10 :: 10 :: s)) endPar = true := by
      rw [HasPrefix_endPar]
      rintro ⟨t, ht⟩
      rcases p with _ | ⟨c, p⟩
      · simp at ht
        simp [ht.1] at hl
      · simp at ht
        exact h ⟨[], p, by simp [endPar, ht.1, ht.2.1]⟩
    have hl' : p.getLast? ≠ some 10 := by
      rcases p with _ | ⟨c, p⟩
      · simp
      · simpa [List.getLast?_cons_cons] using hl
    rw [List.cons_append, textLen_cons _ _ hnp, ih (not_infix_tail b p h) hl']
    rfl

/-- Token stream of a single paragraph. -/
theorem toks_paragraph (p : List Nat) (hne : p ≠ []) (h10 : p.head? ≠ some 10)
    (h35 : p.head? ≠ some 35) (h : ¬ endPar <:+: p) :
    toks .lexNewLine p = [⟨.itemText, p⟩, ⟨.itemEOF, []⟩] := by
  rcases p with _ | ⟨b, t⟩
  · exact absurd rfl hne
  · rw [toks_lexNewLine_text b t (by simpa using h10) (by simpa using h35), toks_lexText,
      textLen_no_endPar _ h]
    simp

/-- Token stream of a paragraph followed by a paragraph separator. -/
theorem toks_paragraph_sep (p rest : List Nat) (hne : p ≠ []) (h10 : p.head? ≠ some 10)
    (h35 : p.head? ≠ some 35) (hl : p.getLast? ≠ some 10) (h : ¬ endPar <:+: p) :
    toks .lexNewLine (p ++ 10 :: 10 :: rest) = ⟨.itemText, p⟩ :: toks .lexNewLine rest := by
  rcases p with _ | ⟨b, t⟩
  · exact absurd rfl hne
  · rw [List.cons_append, toks_lexNewLine_text b _ (by simpa using h10) (by simpa using h35),
      toks_lexText, ← List.cons_append, textLen_append_endPar _ _ h hl]
    simp [toks_lexNewLine_nl]

/-! ## Header lines -/

theorem hashSpan_replicate (j : Nat) (u : List Nat) :
    hashSpan (List.replicate j 35 ++ u) = j + hashSpan u := by
  induction j with
  | zero => simp
  | succ j ih => simp [List.replicate_succ, hashSpan, ih]; omega

theorem hashSpan_of_head (u : List Nat) (h : u.head? ≠ some 35) : hashSpan u = 0 := by
  rcases u with _ | ⟨b, u⟩
  · rfl
  · have : b ≠ 35 := by simpa using h
    simp [hashSpan, this]

theorem spSpan_blanks (ws u : List Nat) (hws : ∀ b ∈ ws, b = 32 ∨ b = 9)
    (h32 : u.head? ≠ some 32) (h9 : u.head? ≠ some 9) : spSpan (ws ++ u) = ws.length := by
  induction ws with
  | nil =>
    rcases u with _ | ⟨b, u⟩
    · rfl
    · have h1 : b ≠ 32 := by simpa using h32
      have h2 : b ≠ 9 := by simpa using h9
      simp [spSpan, h1, h2]
  | cons b ws ih =>
    have hb := hws b (by simp)
    simp [spSpan, hb, ih (fun x hx => hws x (by simp [hx]))]

theorem Index_nl (x rest : List Nat) (h : ∀ b ∈ x, b ≠ 10) :
    Index (x ++ 10 :: rest) [10] = x.length := by
  induction x with
  | nil => simp [Index, List.isPrefixOf]
  | cons b x ih =>
    have hb : b ≠ 10 := h b (by simp)
    have hb' : ¬ (10 : Nat) = b := fun e => hb e.symm
    rw [List.cons_append, Index]
    simp only [List.isPrefixOf, beq_iff_eq, hb', Bool.false_and, Bool.false_eq_true, if_false]
    rw [ih (fun y hy => h y (by simp [hy]))]
    simp
    omega

/-- The first rune of a line ends before the newline of that line. -/
theorem decode_width_le_line (t rest : List Nat) (hne : t ≠ []) (h : ∀ b ∈ t, b ≠ 10) :
    (DecodeRuneInString (t ++ 10 :: rest)).2 ≤ t.length := by
  by_contra hc
  have hlt : t.length < (DecodeRuneInString (t ++ 10 :: rest)).2 := by omega
  have ht1 : 1 ≤ t.length := by
    rcases t with _ | ⟨b, t⟩
    · exact absurd rfl hne
    · simp
  have hw := decode_wide_bytes (t ++ 10 :: rest) (by omega) 10 (by
    rw [List.mem_take_iff_getElem]
    refine ⟨t.length, by simp; omega, ?_⟩
    rw [List.getElem_append_right (Nat.le_refl _)]
    simp)
  omega

theorem headTextLen_line (t rest : List Nat) (hne : t ≠ []) (h : ∀ b ∈ t, b ≠ 10) :
    headTextLen (t ++ 10 :: rest) = t.length := by
  have hw := decode_width_le_line t rest hne h
  unfold headTextLen
  rw [List.drop_append_of_le_length hw,
    Index_nl _ _ (fun b hb => h b (List.mem_of_mem_drop hb))]
  simp
  omega

theorem headTextLen_nil : headTextLen [] = 0 := by
  simp [headTextLen, DecodeRuneInString, Index, List.isPrefixOf]

/-- Token stream of a header line with text, closed by a newline. -/
theorem toks_header_line (k : Nat) (ws t rest : List Nat) (hk : 1 ≤ k)
    (hws : ∀ b ∈ ws, b = 32 ∨ b = 9) (hne : t ≠ []) (hnl : ∀ b ∈ t, b ≠ 10)
    (h32 : t.head? ≠ some 32) (h9 : t.head? ≠ some 9) (h35 : ws = [] → t.head? ≠ some 35) :
    toks .lexNewLine (List.replicate k 35 ++ (ws ++ (t ++ 10 :: rest))) =
      ⟨.itemH1, List.replicate k 35⟩ :: ⟨.itemText, t⟩ :: toks .lexNewLine rest := by
  obtain ⟨j, rfl⟩ : ∃ j, k = j + 1 := ⟨k - 1, by omega⟩
  have hhead : (ws ++ (t ++ 10 :: rest)).head? ≠ some 35 := by
    rcases ws with _ | ⟨b, ws⟩
    · rcases t with _ | ⟨c, t⟩
      · exact absurd rfl hne
      · simpa using h35 rfl
    · have := hws b (by simp)
      simp; omega
  have h32' : (t ++ 10 :: rest).head? ≠ some 32 := by
    rcases t with _ | ⟨c, t⟩
    · exact absurd rfl hne
    · simpa using h32
  have h9' : (t ++ 10 :: rest).head? ≠ some 9 := by
    rcases t with _ | ⟨c, t⟩
    · exact absurd rfl hne
    · simpa using h9
  have htl : 0 < t.length := by
    rcases t with _ | ⟨c, t⟩
    · exact absurd rfl hne
    · simp
  rw [List.replicate_succ, List.cons_append, toks_lexNewLine_hash, toks_lexHeader,
    hashSpan_replicate, hashSpan_of_head _ hhead, toks_lexHeaderText,
    Nat.add_zero, List.drop_left' (List.length_replicate j 35),
    List.take_left' (List.length_replicate j 35),
    spSpan_blanks ws _ hws h32' h9', List.drop_left' rfl, headTextLen_line t rest hne hnl,
    List.take_left' rfl, List.drop_left' rfl, toks_lexNewLine_nl]
  simp [htl]

/-- Token stream of a header marker that ends the input, blanks apart. -/
theorem toks_header_eof (k : Nat) (ws : List Nat) (hk : 1 ≤ k)
    (hws : ∀ b ∈ ws, b = 32 ∨ b = 9) :
    toks .lexNewLine (List.replicate k 35 ++ ws) =
      [⟨.itemH1, List.replicate k 35⟩, ⟨.itemEOF, []⟩] := by
  obtain ⟨j, rfl⟩ : ∃ j, k = j + 1 := ⟨k - 1, by omega⟩
  have hhead : ws.head? ≠ some 35 := by
    rcases ws with _ | ⟨b, ws⟩
    · simp
    · have := hws b (by simp)
      simp; omega
  have hsp : spSpan ws = ws.length := by
    simpa using spSpan_blanks ws [] hws (by simp) (by simp)
  rw [List.replicate_succ, List.cons_append, toks_lexNewLine_hash, toks_lexHeader,
    hashSpan_replicate, hashSpan_of_head _ hhead, toks_lexHeaderText,
    Nat.add_zero, List.drop_left' (List.length_replicate j 35),
    List.take_left' (List.length_replicate j 35), hsp, List.drop_length,
    headTextLen_nil]
  simp [toks_lexNewLine_nil]

/-! ## Runs of newlines -/

theorem textLen_append_sep (a c : List Nat) :
    textLen (a ++ 10 :: 10 :: c) ≤ a.length ∧
      textLen (a ++ 10 :: 10 :: 10 :: c) = textLen (a ++ 10 :: 10 :: c) := by
  induction a with
  | nil => simp [textLen, HasPrefix, endPar, List.isPrefixOf]
  | cons b a ih =>
    have hiff : HasPrefix (b :: a ++ 10 :: 10 :: 10 :: c) endPar =
        HasPrefix (b :: a ++ 10 :: 10 :: c) endPar := by
      rcases a with _ | ⟨d, a⟩ <;> simp [HasPrefix, endPar, List.isPrefixOf]
    simp only [List.cons_append] at hiff ⊢
    simp only [textLen, hiff]
    split
    · simp
    · simp only [List.length_cons]; omega

theorem hashSpan_append_nl (a u : List Nat) : hashSpan (a ++ 10 :: u) = hashSpan a := by
  induction a with
  | nil => simp [hashSpan]
  | cons b a ih => simp [hashSpan, ih]

theorem spSpan_append_nl (a u : List Nat) : spSpan (a ++ 10 :: u) = spSpan a := by
  induction a with
  | nil => simp [spSpan]
  | cons b a ih => simp [spSpan, ih]

/-- The first rune of a non-empty span ends before the newline that follows
the span. -/
theorem decode_width_le_append (x y : List Nat) (hne : x ≠ []) :
    (DecodeRuneInString (x ++ 10 :: y)).2 ≤ x.length := by
  by_contra hc
  have hx1 : 1 ≤ x.length := by
    rcases x with _ | ⟨b, x⟩
    · exact absurd rfl hne
    · simp
  have hw := decode_wide_bytes (x ++ 10 :: y) (by omega) 10 (by
    rw [List.mem_take_iff_getElem]
    refine ⟨x.length, by simp; omega, ?_⟩
    rw [List.getElem_append_right (Nat.le_refl _)]
    simp)
  omega

theorem Index_append_nl (x y y' : List Nat) :
    Index (x ++ 10 :: y) [10] = Index (x ++ 10 :: y') [10] ∧
      (Index (x ++ 10 :: y) [10]).toNat ≤ x.length := by
  induction x with
  | nil => simp [Index, List.isPrefixOf]
  | cons b x ih =>
    rw [List.cons_append, List.cons_append, Index, Index]
    simp only [List.isPrefixOf, Bool.and_true, List.length_cons]
    rw [ih.1]
    have := ih.2
    rw [ih.1] at this
    split
    · simp
    · split
      · simp
      · omega

theorem headTextLen_append (x y y' : List Nat) (hne : x ≠ []) :
    headTextLen (x ++ 10 :: y) = headTextLen (x ++ 10 :: y') ∧
      headTextLen (x ++ 10 :: y) ≤ x.length := by
  have hw := decode_width_le_append x y hne
  have hd := decode_append_ascii x 10 y y' hne (by omega)
  have hw' : (DecodeRuneInString (x ++ 10 :: y')).2 ≤ x.length := by rw [← hd]; exact hw
  have hi := Index_append_nl (x.drop (DecodeRuneInString (x ++ 10 :: y)).2) y y'
  rw [List.length_drop] at hi
  unfold headTextLen
  rw [List.drop_append_of_le_length hw, List.drop_append_of_le_length hw', ← hd, hi.1]
  exact ⟨rfl, by rw [← hi.1]; omega⟩

theorem headTextLen_nl (u : List Nat) : headTextLen (10 :: 10 :: u) = 1 := by
  simp [headTextLen, decode_ascii, Index, List.isPrefixOf]

/-- One more newline in a run of at least two changes no token: the scan from
any state of the text before the run gives the same stream. -/
theorem toks_extra_nl (n : Nat) (f : stateFn) (a c : List Nat)
    (hn : mu f (a ++ 10 :: 10 :: c) < n) (hv : f = .lexHeader → a ≠ []) :
    toks f (a ++ 10 :: 10 :: 10 :: c) = toks f (a ++ 10 :: 10 :: c) := by
  induction n generalizing f a with
  | zero => omega
  | succ n ih =>
    cases f
    · -- lexNewLine
      rcases a with _ | ⟨b, a⟩
      · simp [toks_lexNewLine_nl]
      · by_cases hb : b = 10
        · subst hb
          rw [List.cons_append, List.cons_append, toks_lexNewLine_nl, toks_lexNewLine_nl]
          refine ih .lexNewLine a ?_ (by simp)
          simp only [mu, List.cons_append, List.length_cons] at hn ⊢
          omega
        · by_cases hh : b = 35
          · subst hh
            rw [List.cons_append, List.cons_append, toks_lexNewLine_hash, toks_lexNewLine_hash]
            refine ih .lexHeader (35 :: a) ?_ (by simp)
            simp only [mu, List.cons_append, List.length_cons] at hn ⊢
            omega
          · rw [List.cons_append, List.cons_append, toks_lexNewLine_text _ _ hb hh,
              toks_lexNewLine_text _ _ hb hh]
            refine ih .lexText (b :: a) ?_ (by simp)
            have hnp : HasPrefix (b :: (a ++ 10 :: 10 :: c)) endPar = false := by
              have : ¬ (10 : Nat) = b := fun e => hb e.symm
              simp [HasPrefix, endPar, List.isPrefixOf, this]
            simp only [mu, List.cons_append, List.length_cons, hnp] at hn ⊢
            simp at hn ⊢
            omega
    · -- lexText
      obtain ⟨hle, heq⟩ := textLen_append_sep a c
      have hlt : textLen (a ++ 10 :: 10 :: c) < (a ++ 10 :: 10 :: c).length := by
        simp; omega
      have hlt' : textLen (a ++ 10 :: 10 :: c) < (a ++ 10 :: 10 :: 10 :: c).length := by
        simp; omega
      have hdec := step_decreasing .lexText (a ++ 10 :: 10 :: c) .lexNewLine
        (by simp only [stepNext]; rw [if_pos hlt])
      simp only [stepLen] at hdec
      rw [List.drop_append_of_le_length hle] at hdec
      rw [toks_lexText, toks_lexText, heq, if_pos hlt, if_pos hlt',
        List.take_append_of_le_length hle, List.take_append_of_le_length hle,
        List.drop_append_of_le_length hle, List.drop_append_of_le_length hle,
        ih .lexNewLine _ (by omega) (by simp)]
    · -- lexHeader
      rcases a with _ | ⟨b, a⟩
      · exact absurd rfl (hv rfl)
      · have hj := hashSpan_le a
        rw [List.cons_append, List.cons_append, toks_lexHeader, toks_lexHeader,
          hashSpan_append_nl, hashSpan_append_nl,
          List.take_append_of_le_length hj, List.take_append_of_le_length hj,
          List.drop_append_of_le_length hj, List.drop_append_of_le_length hj,
          ih .lexHeaderText _ ?_ (by simp)]
        simp only [mu, List.cons_append, List.length_cons, List.length_append,
          List.length_drop] at hn ⊢
        omega
    · -- lexHeaderText
      have hj := spSpan_le a
      rw [toks_lexHeaderText, toks_lexHeaderText, spSpan_append_nl, spSpan_append_nl,
        List.drop_append_of_le_length hj, List.drop_append_of_le_length hj]
      rcases hd : a.drop (spSpan a) with _ | ⟨b, a1⟩
      · rw [List.nil_append, List.nil_append, headTextLen_nl, headTextLen_nl]
        simp [toks_lexNewLine_nl]
      · rw [← hd]
        have hne : a.drop (spSpan a) ≠ [] := by rw [hd]; simp
        obtain ⟨heq, hle⟩ := headTextLen_append (a.drop (spSpan a)) (10 :: c) (10 :: 10 :: c) hne
        rw [← heq, List.take_append_of_le_length hle, List.take_append_of_le_length hle,
          List.drop_append_of_le_length hle, List.drop_append_of_le_length hle,
          ih .lexNewLine _ ?_ (by simp)]
        simp only [mu, List.length_cons, List.length_append, List.length_drop] at hn ⊢
        omega

/-- A run of `k ≥ 2` newlines scans like a run of two. -/
theorem toks_newline_run (a b : List Nat) (k : Nat) (hk : 2 ≤ k) :
    toks .lexNewLine (a ++ (List.replicate k 10 ++ b)) =
      toks .lexNewLine (a ++ (10 :: 10 :: b)) := by
  obtain ⟨j, rfl⟩ : ∃ j, k = j + 2 := ⟨k - 2, by omega⟩
  induction j with
  | zero => rfl
  | succ j ih =>
    rw [← ih (by omega)]
    have e1 : a ++ (List.replicate (j + 1 + 2) 10 ++ b) =
        a ++ 10 :: 10 :: 10 :: (List.replicate j 10 ++ b) := by
      simp [List.replicate_succ]
    have e2 : a ++ (List.replicate (j + 2) 10 ++ b) =
        a ++ 10 :: 10 :: (List.replicate j 10 ++ b) := by
      simp [List.replicate_succ]
    rw [e1, e2]
    exact toks_extra_nl _ .lexNewLine a _ (Nat.lt_succ_self _) (by simp)

theorem nextItem_nil_state (l : lexer) (hst : l.state = none) (hi : l.items = []) :
    nextItem l = .error .panic := by
  simp [nextItem, nextItemLoop, hst, hi]

theorem pending_eq_nil (l : lexer) (hr : Ready l) (h : pending l = []) :
    l.state = none ∧ l.items = [] := by
  unfold pending at h
  obtain ⟨hi, hx⟩ := List.append_eq_nil.1 h
  refine ⟨?_, hi⟩
  rcases hst : l.state with _ | f
  · rfl
  · rw [hst] at hx
    obtain ⟨body, _, _, he⟩ := toks_shape _ f (l.input.drop l.pos) (Nat.lt_succ_self _)
      (hr.hv f hst)
    simp only [he] at hx
    simp at hx

/-- A reachable lexer either still has a token stream to deliver, which ends
with its only `EOF` token, or it has delivered that token: its state is nil
and its buffer is empty. -/
theorem Reachable.inv {name input : List Nat} {l : lexer} (h : Reachable name input l) :
    Ready l ∧
      ((∃ body, (∀ x ∈ body, x.typ = .itemText ∨ x.typ = .itemH1) ∧
          pending l = body ++ [⟨.itemEOF, []⟩]) ∨
        (l.state = none ∧ l.items = [])) := by
  induction h with
  | init =>
    obtain ⟨body, hb, _, he⟩ := toks_lexNewLine_shape input
    exact ⟨Ready_lex name input, Or.inl ⟨body, hb, by rw [pending_lex, he]⟩⟩
  | step l l1 it _ hstep ih =>
    obtain ⟨hr, ⟨body, hb, hp⟩ | ⟨hst, hi⟩⟩ := ih
    · rcases body with _ | ⟨x, body⟩
      · obtain ⟨l2, h2, hr2, hp2, _⟩ := nextItem_spec l _ [] hr (by simpa using hp)
        rw [hstep] at h2
        injection h2 with h2
        injection h2 with _ h2
        subst h2
        exact ⟨hr2, Or.inr (pending_eq_nil l1 hr2 hp2)⟩
      · obtain ⟨l2, h2, hr2, hp2, _⟩ := nextItem_spec l x (body ++ [⟨.itemEOF, []⟩]) hr
          (by simpa using hp)
        rw [hstep] at h2
        injection h2 with h2
        injection h2 with _ h2
        subst h2
        exact ⟨hr2, Or.inl ⟨body, fun y hy => hb y (by simp [hy]), hp2⟩⟩
    · rw [nextItem_nil_state l hst hi] at hstep
      cases hstep

/-! ## Termination of a scan (claims C1 to C3) -/

/-- C1 (as stated, refuted): on the empty input the first call of `nextItem`
returns the `EOF` token and leaves the lexer with the nil state and an empty
buffer; the second call does not return that token again, it calls the nil
state, which panics. -/
theorem nextItem_after_eof_counterexample :
    nextItem (lex [] []) =
        .ok (⟨.itemEOF, []⟩,
          { name := [], input := [], state := none, start := 0, pos := 0, width := 0,
            items := [] }) ∧
      nextItem { name := [], input := [], state := none, start := 0, pos := 0, width := 0,
                 items := [] } = .error .panic := by
  constructor <;> rfl

/-- C1 (amended): once `nextItem` on a lexer made by `lex` has returned the
`EOF` token, the lexer is in its terminal condition (nil state, empty buffer)
and every further call of `nextItem` panics instead of returning a token. -/
theorem nextItem_after_eof_panics (name input : List Nat) (l l1 : lexer) (it : item)
    (hl : Reachable name input l) (hstep : nextItem l = .ok (it, l1))
    (hit : it.typ = .itemEOF) :
    l1.state = none ∧ l1.items = [] ∧ nextItem l1 = .error .panic := by
  obtain ⟨hr1, h1⟩ := (Reachable.step l l1 it hl hstep).inv
  obtain ⟨hr, h⟩ := hl.inv
  rcases h with ⟨body, hb, hp⟩ | ⟨hst, hi⟩
  · rcases body with _ | ⟨x, body⟩
    · obtain ⟨l2, h2, hr2, hp2, _⟩ := nextItem_spec l _ [] hr (by simpa using hp)
      rw [hstep] at h2
      injection h2 with h2
      injection h2 with _ h2
      subst h2
      obtain ⟨hst, hi⟩ := pending_eq_nil l1 hr2 hp2
      exact ⟨hst, hi, nextItem_nil_state l1 hst hi⟩
    · obtain ⟨l2, h2, _⟩ := nextItem_spec l x (body ++ [⟨.itemEOF, []⟩]) hr
        (by simpa using hp)
      rw [hstep] at h2
      injection h2 with h2
      injection h2 with h2 _
      subst h2
      rcases hb it (by simp) with h | h <;> rw [h] at hit <;> cases hit
  · rw [nextItem_nil_state l hst hi] at hstep
    cases hstep

/-- Witness for C1 (amended): on the input "a" the second call returns the
`EOF` token and the third call panics. -/
theorem nextItem_after_eof_panics_witness :
    nextItem { name := [], input := [97], state := none, start := 1, pos := 1, width := 0,
               items := [⟨.itemEOF, []⟩] } =
        .ok (⟨.itemEOF, []⟩,
          { name := [], input := [97], state := none, start := 1, pos := 1, width := 0,
            items := [] }) ∧
      nextItem { name := [], input := [97], state := none, start := 1, pos := 1, width := 0,
                 items := [] } = .error .panic :=
  ⟨rfl, (nextItem_after_eof_panics [] [97]
      { name := [], input := [97], state := none, start := 1, pos := 1, width := 0,
        items := [⟨.itemEOF, []⟩] }
      { name := [], input := [97], state := none, start := 1, pos := 1, width := 0,
        items := [] }
      ⟨.itemEOF, []⟩
      (Reachable.step (lex [] [97]) _ ⟨.itemText, [97]⟩ Reachable.init rfl) rfl rfl).2.2⟩

/-- C2: for every input, `collect` (repeated `nextItem` from `lex name input`)
returns: no call runs out of its budget of state-function calls, none calls
the nil state, and after at most `len(input) + 1` calls a token of kind `EOF`
or `Error` ends the stream; the tokens before it are not of these kinds. -/
theorem collect_terminates (name input : List Nat) :
    ∃ body last, collect name input = .ok (body ++ [last]) ∧
      (last.typ = .itemEOF ∨ last.typ = .itemError) ∧
      (∀ x ∈ body, x.typ ≠ .itemEOF ∧ x.typ ≠ .itemError) ∧
      body.length ≤ input.length := by
  obtain ⟨body, hb, hl, he⟩ := toks_lexNewLine_shape input
  refine ⟨body, ⟨.itemEOF, []⟩, by rw [collect_eq_toks, he], Or.inl rfl, ?_, hl⟩
  intro x hx
  rcases hb x hx with h | h <;> rw [h] <;> simp

/-- C3: for every input, the collected token sequence holds no `Error` token,
ends with the token `EOF` with empty text, and holds exactly one `EOF` token. -/
theorem collect_no_error (name input : List Nat) :
    ∃ items, collect name input = .ok items ∧
      (∀ x ∈ items, x.typ ≠ .itemError) ∧
      items.getLast? = some ⟨.itemEOF, []⟩ ∧
      (items.filter (fun x => decide (x.typ = .itemEOF))).length = 1 := by
  obtain ⟨body, hb, _, he⟩ := toks_lexNewLine_shape input
  refine ⟨body ++ [⟨.itemEOF, []⟩], by rw [collect_eq_toks, he], ?_, by simp, ?_⟩
  · intro x hx
    rcases List.mem_append.1 hx with h | h
    · rcases hb x h with h | h <;> rw [h] <;> simp
    · simp at h; subst h; simp
  · have hnone : body.filter (fun x => decide (x.typ = .itemEOF)) = [] := by
      rw [List.filter_eq_nil_iff]
      intro x hx
      rcases hb x hx with h | h <;> rw [h] <;> simp
    rw [List.filter_append, hnone]
    simp

/-! ## Token sequences of paragraphs and header lines (claims C4 to C10) -/

/-- C4 (as stated, refuted): the input "#" is a header line, yet its token
sequence is the `H1` token followed by `EOF`: no `Text` token follows the
marker, since `lexHeaderText` emits only a non-empty span. -/
theorem header_detection_counterexample :
    collect [] [35] = .ok [⟨.itemH1, [35]⟩, ⟨.itemEOF, []⟩] ∧
      ¬ ∃ t rest, collect [] [35] = .ok (⟨.itemH1, [35]⟩ :: ⟨.itemText, t⟩ :: rest) := by
  have h : collect [] [35] = .ok [⟨.itemH1, [35]⟩, ⟨.itemEOF, []⟩] := rfl
  refine ⟨h, ?_⟩
  rintro ⟨t, rest, ht⟩
  rw [h] at ht
  injection ht with ht
  injection ht with _ ht
  injection ht with ht _
  injection ht with ht _
  cases ht

/-- C4 (amended): a header line `#`^k, blanks `ws`, text `t`, newline, that
stands at the start of the input (after any leading newlines) or after a
paragraph `p` and at least two newlines, yields one `H1` token whose text is
the whole run of `#`, then one `Text` token whose text is `t`, then the
tokens of the input after the line's newline; a marker that ends the input,
blanks apart, yields the `H1` token and no `Text` token. -/
theorem header_detection (name p : List Nat) (n k : Nat) (ws t rest : List Nat)
    (hp : p = [] ∨ (p.head? ≠ some 10 ∧ p.head? ≠ some 35 ∧ p.getLast? ≠ some 10 ∧
      ¬ endPar <:+: p ∧ 2 ≤ n))
    (hk : 1 ≤ k) (hws : ∀ b ∈ ws, b = 32 ∨ b = 9) (hne : t ≠ [])
    (hnl : ∀ b ∈ t, b ≠ 10) (h32 : t.head? ≠ some 32) (h9 : t.head? ≠ some 9)
    (h35 : ws = [] → t.head? ≠ some 35) :
    (∃ items, collect name rest = .ok items ∧
      collect name (p ++ (List.replicate n 10 ++
          (List.replicate k 35 ++ (ws ++ (t ++ 10 :: rest))))) =
        .ok ((if p = [] then [] else [⟨.itemText, p⟩]) ++
          ⟨.itemH1, List.replicate k 35⟩ :: ⟨.itemText, t⟩ :: items)) ∧
    collect name (p ++ (List.replicate n 10 ++ (List.replicate k 35 ++ ws))) =
      .ok ((if p = [] then [] else [⟨.itemText, p⟩]) ++
        [⟨.itemH1, List.replicate k 35⟩, ⟨.itemEOF, []⟩]) := by
  simp only [collect_eq_toks]
  by_cases hp0 : p = []
  · subst hp0
    simp only [List.nil_append, toks_lexNewLine_replicate, if_true]
    exact ⟨⟨_, rfl, by rw [toks_header_line k ws t rest hk hws hne hnl h32 h9 h35]⟩,
      by rw [toks_header_eof k ws hk hws]⟩
  · rcases hp with rfl | ⟨h10, hh, hl, hinf, hn⟩
    · exact absurd rfl hp0
    · obtain ⟨j, rfl⟩ : ∃ j, n = j + 2 := ⟨n - 2, by omega⟩
      have e : ∀ u : List Nat, p ++ (List.replicate (j + 2) 10 ++ u) =
          p ++ 10 :: 10 :: (List.replicate j 10 ++ u) := by
        intro u; simp [List.replicate_succ]
      simp only [e, toks_paragraph_sep p _ hp0 h10 hh hl hinf, toks_lexNewLine_replicate,
        if_neg hp0]
      exact ⟨⟨_, rfl, by rw [toks_header_line k ws t rest hk hws hne hnl h32 h9 h35]; rfl⟩,
        by rw [toks_header_eof k ws hk hws]; rfl⟩

/-- Witness for C4 (amended): the header of "par one\n\n# header\n\npar two". -/
theorem header_detection_witness :
    (∃ items, collect [] (bytes "\npar two") = .ok items ∧
      collect [] (bytes "par one" ++ (List.replicate 2 10 ++
          (List.replicate 1 35 ++ (bytes " " ++ (bytes "header" ++ 10 :: bytes "\npar two"))))) =
        .ok ((if bytes "par one" = [] then [] else [⟨.itemText, bytes "par one"⟩]) ++
          ⟨.itemH1, List.replicate 1 35⟩ :: ⟨.itemText, bytes "header"⟩ :: items)) ∧
    collect [] (bytes "par one" ++ (List.replicate 2 10 ++ (List.replicate 1 35 ++ bytes " "))) =
      .ok ((if bytes "par one" = [] then [] else [⟨.itemText, bytes "par one"⟩]) ++
        [⟨.itemH1, List.replicate 1 35⟩, ⟨.itemEOF, []⟩]) :=
  header_detection [] (bytes "par one") 2 1 (bytes " ") (bytes "header") (bytes "\npar two")
    (Or.inr (by decide)) (by decide) (by decide) (by decide) (by decide) (by decide)
    (by decide) (by decide)

/-- C5: a non-empty input that begins neither with a newline nor with `#` and
holds no two newlines in a row is one paragraph: its token sequence is the
`Text` token of the whole input, then `EOF`. -/
theorem single_paragraph (name input : List Nat) (hne : input ≠ [])
    (h10 : input.head? ≠ some 10) (h35 : input.head? ≠ some 35)
    (hinf : ¬ endPar <:+: input) :
    collect name input = .ok [⟨.itemText, input⟩, ⟨.itemEOF, []⟩] := by
  rw [collect_eq_toks, toks_paragraph input hne h10 h35 hinf]

/-- Witness for C5: the input " \t\n" of the test "spaces". -/
theorem single_paragraph_witness :
    collect [] (bytes " \t\n") = .ok [⟨.itemText, bytes " \t\n"⟩, ⟨.itemEOF, []⟩] :=
  single_paragraph [] (bytes " \t\n") (by decide) (by decide) (by decide) (by decide)

/-- C6: for a paragraph `p` (non-empty, not beginning with a newline or `#`,
not ending with a newline, no two newlines in a row) and any `rest`, the token
sequence of `p`, two newlines, `rest` is `Text(p)` followed by the token
sequence of `rest`. -/
theorem paragraph_split (name p rest : List Nat) (hne : p ≠ [])
    (h10 : p.head? ≠ some 10) (h35 : p.head? ≠ some 35) (hl : p.getLast? ≠ some 10)
    (hinf : ¬ endPar <:+: p) :
    ∃ items, collect name rest = .ok items ∧
      collect name (p ++ (endPar ++ rest)) = .ok (⟨.itemText, p⟩ :: items) := by
  refine ⟨_, collect_eq_toks name rest, ?_⟩
  rw [collect_eq_toks]
  exact congrArg Except.ok (toks_paragraph_sep p rest hne h10 h35 hl hinf)

/-- Witness for C6: "go is fun", two newlines, "rodents are gross". -/
theorem paragraph_split_witness :
    ∃ items, collect [] (bytes "rodents are gross") = .ok items ∧
      collect [] (bytes "go is fun" ++ (endPar ++ bytes "rodents are gross")) =
        .ok (⟨.itemText, bytes "go is fun"⟩ :: items) :=
  paragraph_split [] (bytes "go is fun") (bytes "rodents are gross")
    (by decide) (by decide) (by decide) (by decide) (by decide)

/-- C7: for `k ≥ 1`, blanks `ws`, a non-empty text `t` without newline that
begins with neither a space nor a tab (nor `#` when `ws` is empty) and any
`rest`, the token sequence of `#`^k, `ws`, `t`, newline, `rest` is
`H1(#^k)`, `Text(t)`, then the token sequence of `rest`. -/
theorem header_line_split (name : List Nat) (k : Nat) (ws t rest : List Nat)
    (hk : 1 ≤ k) (hws : ∀ b ∈ ws, b = 32 ∨ b = 9) (hne : t ≠ [])
    (hnl : ∀ b ∈ t, b ≠ 10) (h32 : t.head? ≠ some 32) (h9 : t.head? ≠ some 9)
    (h35 : ws = [] → t.head? ≠ some 35) :
    ∃ items, collect name rest = .ok items ∧
      collect name (List.replicate k 35 ++ (ws ++ (t ++ 10 :: rest))) =
        .ok (⟨.itemH1, List.replicate k 35⟩ :: ⟨.itemText, t⟩ :: items) := by
  refine ⟨_, collect_eq_toks name rest, ?_⟩
  rw [collect_eq_toks]
  exact congrArg Except.ok (toks_header_line k ws t rest hk hws hne hnl h32 h9 h35)

/-- Witness for C7: the input "# This is a header\n" of the test "h1". -/
theorem header_line_split_witness :
    ∃ items, collect [] [] = .ok items ∧
      collect [] (List.replicate 1 35 ++ (bytes " " ++ (bytes "This is a header" ++ 10 :: []))) =
        .ok (⟨.itemH1, List.replicate 1 35⟩ :: ⟨.itemText, bytes "This is a header"⟩ :: items) :=
  header_line_split [] 1 (bytes " ") (bytes "This is a header") []
    (by decide) (by decide) (by decide) (by decide) (by decide) (by decide) (by decide)

/-- C8: for all `a`, `b` and `k ≥ 2`, the input `a`, `k` newlines, `b` has the
token sequence of `a`, two newlines, `b`. -/
theorem newline_run_collapse (name a b : List Nat) (k : Nat) (hk : 2 ≤ k) :
    collect name (a ++ (List.replicate k 10 ++ b)) = collect name (a ++ (endPar ++ b)) := by
  rw [collect_eq_toks, collect_eq_toks]
  exact congrArg Except.ok (toks_newline_run a b k hk)

/-- Witness for C8: five newlines between "go is fun" and "# h". -/
theorem newline_run_collapse_witness :
    collect [] (bytes "go is fun" ++ (List.replicate 5 10 ++ bytes "# h")) =
      collect [] (bytes "go is fun" ++ (endPar ++ bytes "# h")) :=
  newline_run_collapse [] (bytes "go is fun") (bytes "# h") 5 (by decide)

/-- C9: the input of `n` newlines, the empty input for `n = 0`, has the token
sequence `EOF` alone. -/
theorem newlines_only (name : List Nat) (n : Nat) :
    collect name (List.replicate n 10) = .ok [⟨.itemEOF, []⟩] := by
  have h := toks_lexNewLine_replicate n []
  rw [List.append_nil] at h
  rw [collect_eq_toks, h, toks_lexNewLine_nil]

/-- C10: the name given to `lex` has no effect on the token sequence. -/
theorem name_irrelevant (n1 n2 s : List Nat) : collect n1 s = collect n2 s := by
  rw [collect_eq_toks, collect_eq_toks]

/-! ## Properties of every token of a scan -/

/-- Induction over the state-function calls of a scan. -/
theorem toks_induct (Q : stateFn → List Nat → List item → Prop)
    (hnone : ∀ f s, stepNext f s = none → Q f s (stepItems f s))
    (hsome : ∀ f g s ts, stepNext f s = some g → Q g (s.drop (stepLen f s)) ts →
      Q f s (stepItems f s ++ ts))
    (f : stateFn) (s : List Nat) : Q f s (toks f s) := by
  have key : ∀ n f s, mu f s < n → Q f s (toks f s) := by
    intro n
    induction n with
    | zero => intro f s h; omega
    | succ n ih =>
      intro f s hn
      rcases hnx : stepNext f s with _ | g
      · rw [toks_of_none f s hnx]
        exact hnone f s hnx
      · rw [toks_of_some f g s hnx]
        have hdec := step_decreasing f s g hnx
        exact hsome f g s _ hnx (ih g _ (by omega))
  exact key _ f s (Nat.lt_succ_self _)

theorem AtHash_step (f g : stateFn) (s : List Nat) (h : stepNext f s = some g) :
    AtHash g (s.drop (stepLen f s)) := by
  intro hg
  subst hg
  cases f
  · simp only [stepNext, Option.some.injEq] at h
    simp only [stepLen]
    split at h
    · rename_i hp
      rcases hd : s.drop (nlSpan s) with _ | ⟨b, t⟩
      · rw [hd, h1, HasPrefix_nil_left] at hp
        cases hp
      · rw [hd, h1, HasPrefix_cons_single] at hp
        simpa using hp
    · cases h
  · simp only [stepNext] at h
    split at h <;> cases h
  · rcases s with _ | ⟨b, t⟩ <;> simp [stepNext] at h
  · simp [stepNext] at h

theorem AtHash_Valid (f : stateFn) (s : List Nat) (h : AtHash f s) : Valid f s := by
  intro hf hs
  have := h hf
  rw [hs] at this
  cases this

theorem stepLen_none (f : stateFn) (s : List Nat) (h : stepNext f s = none) :
    s.drop (stepLen f s) = [] := by
  cases f
  · simp [stepNext] at h
  · simp only [stepNext] at h
    split at h
    · cases h
    · exact List.drop_eq_nil_of_le (by simp only [stepLen]; omega)
  · rcases s with _ | ⟨b, t⟩
    · rfl
    · simp [stepNext] at h
  · simp [stepNext] at h

theorem take_nlSpan (s : List Nat) : ∀ b ∈ s.take (nlSpan s), b = 10 := by
  induction s with
  | nil => simp [nlSpan]
  | cons c t ih =>
    by_cases hc : c = 10
    · simp only [nlSpan, hc, if_true, List.take_succ_cons, List.mem_cons]
      rintro b (hb | hb)
      · exact hb
      · exact ih b hb
    · simp [nlSpan, hc]

theorem take_spSpan (s : List Nat) : ∀ b ∈ s.take (spSpan s), b = 32 ∨ b = 9 := by
  induction s with
  | nil => simp [spSpan]
  | cons c t ih =>
    by_cases hc : c = 32 ∨ c = 9
    · simp only [spSpan, hc, if_true, List.take_succ_cons, List.mem_cons]
      rintro b (hb | hb)
      · rw [hb]; exact hc
      · exact ih b hb
    · simp [spSpan, hc]

theorem take_hashSpan (s : List Nat) : s.take (hashSpan s) = List.replicate (hashSpan s) 35 := by
  induction s with
  | nil => simp [hashSpan]
  | cons c t ih =>
    by_cases hc : c = 35
    · simp [hashSpan, hc, List.replicate_succ, ih]
    · simp [hashSpan, hc]

/-- One state-function call splits the unread input into a gap of skipped
blank bytes, the text of the token it emits (if any, and then not empty), and
the input left unread. -/
theorem step_split (f : stateFn) (s : List Nat) (hv : Valid f s) :
    ∃ gap, (∀ b ∈ gap, isBlank b) ∧
      (((stepItems f s).filter isData = [] ∧ s = gap ++ s.drop (stepLen f s)) ∨
        (∃ x, (stepItems f s).filter isData = [x] ∧ x.val ≠ [] ∧
          s = gap ++ (x.val ++ s.drop (stepLen f s)))) := by
  cases f
  · refine ⟨s.take (nlSpan s), fun b hb => Or.inl (take_nlSpan s b hb), Or.inl ⟨rfl, ?_⟩⟩
    simp [stepLen]
  · refine ⟨[], by simp, ?_⟩
    have hle := textLen_le s
    by_cases hk : 0 < textLen s
    · refine Or.inr ⟨⟨.itemText, s.take (textLen s)⟩, ?_, ?_, by simp [stepLen]⟩
      · by_cases hl : textLen s < s.length <;> simp [stepItems, hk, hl, isData]
      · intro h
        have := congrArg List.length h
        rw [List.length_take, List.length_nil] at this
        omega
    · refine Or.inl ⟨?_, ?_⟩
      · by_cases hl : textLen s < s.length <;> simp [stepItems, hk, hl, isData]
      · have : textLen s = 0 := by omega
        simp [stepLen, this]
  · rcases s with _ | ⟨b, t⟩
    · exact absurd rfl (hv rfl)
    · exact ⟨[], by simp, Or.inr ⟨⟨.itemH1, (b :: t).take (1 + hashSpan t)⟩,
        by simp [stepItems, isData], by simp [Nat.add_comm 1], by simp [stepLen]⟩⟩
  · refine ⟨s.take (spSpan s), fun b hb => Or.inr (take_spSpan s b hb), ?_⟩
    have hle := headTextLen_le (s.drop (spSpan s))
    by_cases hk : 0 < headTextLen (s.drop (spSpan s))
    · refine Or.inr ⟨⟨.itemText, (s.drop (spSpan s)).take (headTextLen (s.drop (spSpan s)))⟩,
        by simp [stepItems, hk, isData], ?_, ?_⟩
      · intro h
        have := congrArg List.length h
        rw [List.length_take, List.length_nil] at this
        omega
      · simp only [stepLen]
        rw [← List.drop_drop, List.take_append_drop, List.take_append_drop]
    · refine Or.inl ⟨by simp [stepItems, hk, isData], ?_⟩
      have : headTextLen (s.drop (spSpan s)) = 0 := by omega
      simp [stepLen, this]

/-- The texts of the tokens of a scan, in order, are consecutive spans of the
unread input, with only blank bytes between them. -/
theorem toks_weave (f : stateFn) (s : List Nat) (hv : Valid f s) :
    ∃ g0 pairs, ((toks f s).filter isData).map (fun x => x.val) = pairs.map (fun p => p.1) ∧
      s = weave g0 pairs ∧ (∀ b ∈ g0, isBlank b) ∧ ∀ p ∈ pairs, ∀ b ∈ p.2, isBlank b := by
  revert hv
  refine toks_induct
    (fun f s ts => Valid f s → ∃ g0 pairs,
      (ts.filter isData).map (fun x => x.val) = pairs.map (fun p => p.1) ∧
      s = weave g0 pairs ∧ (∀ b ∈ g0, isBlank b) ∧ ∀ p ∈ pairs, ∀ b ∈ p.2, isBlank b)
    ?_ ?_ f s
  · intro f s hnx hv
    obtain ⟨gap, hgap, h⟩ := step_split f s hv
    rw [stepLen_none f s hnx] at h
    rcases h with ⟨h0, hs⟩ | ⟨x, hx, _, hs⟩
    · exact ⟨gap, [], by simp [h0], by simpa [weave] using hs, hgap, by simp⟩
    · exact ⟨gap, [(x.val, [])], by simp [hx], by simpa [weave] using hs, hgap, by simp⟩
  · intro f g s ts hnx ih hv
    obtain ⟨g0, pairs, h1, h2, h3, h4⟩ := ih (Valid_step f g s hnx)
    obtain ⟨gap, hgap, h⟩ := step_split f s hv
    rcases h with ⟨h0, hs⟩ | ⟨x, hx, _, hs⟩
    · refine ⟨gap ++ g0, pairs, by simp [List.filter_append, h0, h1], ?_, ?_, h4⟩
      · rw [hs, h2]
        simp [weave]
      · intro b hb
        rcases List.mem_append.1 hb with h | h
        · exact hgap b h
        · exact h3 b h
    · refine ⟨gap, (x.val, g0) :: pairs, by simp [List.filter_append, hx, h1], ?_, hgap, ?_⟩
      · rw [hs, h2]
        simp [weave]
      · intro p hp
        rcases List.mem_cons.1 hp with h | h
        · rw [h]; exact h3
        · exact h4 p h

/-- Every `Text` or `H1` token of a scan has a text that is not empty and is
a contiguous part of the unread input. -/
theorem toks_data (f : stateFn) (s : List Nat) (hv : Valid f s) :
    ∀ x ∈ toks f s, isData x = true → x.val ≠ [] ∧ x.val <:+: s := by
  revert hv
  refine toks_induct
    (fun f s ts => Valid f s → ∀ x ∈ ts, isData x = true → x.val ≠ [] ∧ x.val <:+: s)
    ?_ ?_ f s
  · intro f s _ hv x hx hd
    obtain ⟨gap, _, h⟩ := step_split f s hv
    have hmem : x ∈ (stepItems f s).filter isData := List.mem_filter.2 ⟨hx, hd⟩
    rcases h with ⟨h0, _⟩ | ⟨y, hy, hne, hs⟩
    · rw [h0] at hmem; cases hmem
    · rw [hy] at hmem
      have : x = y := by simpa using hmem
      subst this
      exact ⟨hne, ⟨gap, s.drop (stepLen f s), by rw [List.append_assoc]; exact hs.symm⟩⟩
  · intro f g s ts hnx ih hv x hx hd
    rcases List.mem_append.1 hx with hx | hx
    · obtain ⟨gap, _, h⟩ := step_split f s hv
      have hmem : x ∈ (stepItems f s).filter isData := List.mem_filter.2 ⟨hx, hd⟩
      rcases h with ⟨h0, _⟩ | ⟨y, hy, hne, hs⟩
      · rw [h0] at hmem; cases hmem
      · rw [hy] at hmem
        have : x = y := by simpa using hmem
        subst this
        exact ⟨hne, ⟨gap, s.drop (stepLen f s), by rw [List.append_assoc]; exact hs.symm⟩⟩
    · obtain ⟨hne, hin⟩ := ih (Valid_step f g s hnx) x hx hd
      exact ⟨hne, hin.trans (List.drop_suffix _ s).isInfix⟩

theorem not_infix_cons_of_no_nl (b : Nat) (u : List Nat) (h : ∀ x ∈ u, x ≠ 10) :
    ¬ endPar <:+: b :: u := by
  rw [List.infix_cons_iff]
  rintro (hp | hi)
  · obtain ⟨v, hv⟩ := hp
    rcases u with _ | ⟨c, u⟩
    · simp [endPar] at hv
    · simp [endPar] at hv
      exact h c (by simp) hv.2.1.symm
  · exact h 10 (hi.subset (by simp [endPar])) rfl

theorem take_textLen_no_sep (s : List Nat) : ¬ endPar <:+: s.take (textLen s) := by
  induction s with
  | nil =>
    rintro ⟨u, v, h⟩
    simp [endPar] at h
  | cons b t ih =>
    by_cases hp : HasPrefix (b :: t) endPar = true
    · rw [ textLen_of_prefix _ hp]
      rintro ⟨u, v, h⟩
      simp [endPar] at h
    · rw [textLen_cons b t hp, List.take_succ_cons, List.infix_cons_iff]
      rintro (hpre | hi)
      · obtain ⟨v, hv⟩ := hpre
        apply hp
        rw [HasPrefix_endPar]
        rcases t with _ | ⟨c, t⟩
        · simp [endPar] at hv
        · rcases hk : textLen (c :: t) with _ | k
          · rw [hk] at hv; simp [endPar] at hv
          · rw [hk] at hv
            simp [endPar] at hv
            exact ⟨t, by rw [← hv.1, ← hv.2.1]⟩
      · exact ih hi

theorem take_Index_no_nl (u : List Nat) : ∀ x ∈ u.take (Index u [10]).toNat, x ≠ 10 := by
  induction u with
  | nil => simp
  | cons c v ih =>
    rw [Index]
    simp only [List.isPrefixOf, Bool.and_true, beq_iff_eq]
    by_cases hc : 10 = c
    · simp [hc]
    · rw [if_neg hc]
      by_cases hneg : Index v [10] < 0
      · simp [hneg]
      · rw [if_neg hneg]
        have e : (Index v [10] + 1).toNat = (Index v [10]).toNat + 1 := by omega
        rw [e, List.take_succ_cons]
        intro x hx
        rcases List.mem_cons.1 hx with h | h
        · rw [h]; exact fun e => hc e.symm
        · exact ih x h

/-- The header text holds no two newlines in a row: only its first byte can
be a newline. -/
theorem take_headTextLen_no_sep (s : List Nat) : ¬ endPar <:+: s.take (headTextLen s) := by
  rcases s with _ | ⟨b, t⟩
  · rintro ⟨u, v, h⟩
    simp [endPar] at h
  · have hw1 := decode_width_pos b t
    have hwl := decode_width_le (b :: t)
    unfold headTextLen
    rw [List.take_add]
    obtain ⟨w, hw⟩ : ∃ w, (DecodeRuneInString (b :: t)).2 = w + 1 :=
      ⟨(DecodeRuneInString (b :: t)).2 - 1, by omega⟩
    have hwide := decode_wide_bytes (b :: t)
    rw [hw] at hwide ⊢
    rw [List.take_succ_cons, List.cons_append]
    apply not_infix_cons_of_no_nl
    intro x hx
    rcases List.mem_append.1 hx with h | h
    · by_cases h2 : 2 ≤ w + 1
      · have := hwide h2 x (by rw [List.take_succ_cons]; exact List.mem_cons_of_mem _ h)
        omega
      · have : w = 0 := by omega
        subst this
        simp at h
    · exact take_Index_no_nl _ x h

/-- No token of one state-function call holds two newlines in a row. -/
theorem stepItems_no_sep (f : stateFn) (s : List Nat) :
    ∀ x ∈ stepItems f s, ¬ endPar <:+: x.val := by
  have hnil : ¬ endPar <:+: ([] : List Nat) := by
    rintro ⟨u, v, h⟩
    simp [endPar] at h
  cases f
  · simp [stepItems]
  · intro x hx
    simp only [stepItems, List.mem_append] at hx
    rcases hx with hx | hx
    · split at hx
      · simp at hx; subst hx; exact take_textLen_no_sep s
      · cases hx
    · split at hx
      · cases hx
      · simp at hx; subst hx; exact hnil
  · rcases s with _ | ⟨b, t⟩
    · simp [stepItems]
    · intro x hx
      simp only [stepItems, List.mem_singleton] at hx
      subst hx
      simp only [Nat.add_comm 1, List.take_succ_cons, take_hashSpan]
      apply not_infix_cons_of_no_nl
      intro y hy
      rw [List.mem_replicate] at hy
      omega
  · intro x hx
    simp only [stepItems] at hx
    split at hx
    · simp at hx; subst hx; exact take_headTextLen_no_sep _
    · cases hx

theorem toks_no_sep (f : stateFn) (s : List Nat) : ∀ x ∈ toks f s, ¬ endPar <:+: x.val := by
  refine toks_induct (fun _ _ ts => ∀ x ∈ ts, ¬ endPar <:+: x.val) ?_ ?_ f s
  · intro f s _
    exact stepItems_no_sep f s
  · intro f g s ts _ ih x hx
    rcases List.mem_append.1 hx with h | h
    · exact stepItems_no_sep f s x h
    · exact ih x h

/-- A token `H1` of one state-function call entered at a `#` is a run of `#`. -/
theorem stepItems_H1 (f : stateFn) (s : List Nat) (hv : AtHash f s) :
    ∀ x ∈ stepItems f s, x.typ = .itemH1 → ∃ k, 1 ≤ k ∧ x.val = List.replicate k 35 := by
  cases f
  · simp [stepItems]
  · intro x hx ht
    simp only [stepItems, List.mem_append] at hx
    rcases hx with hx | hx <;> split at hx <;> simp at hx <;> subst hx <;> cases ht
  · rcases s with _ | ⟨b, t⟩
    · simp [stepItems]
    · have hb : b = 35 := by simpa using hv rfl
      subst hb
      intro x hx _
      simp only [stepItems, List.mem_singleton] at hx
      subst hx
      exact ⟨hashSpan t + 1, by omega,
        by simp [Nat.add_comm 1, take_hashSpan, List.replicate_succ]⟩
  · intro x hx ht
    simp only [stepItems] at hx
    split at hx <;> simp at hx
    subst hx
    cases ht

theorem toks_H1 (f : stateFn) (s : List Nat) (hv : AtHash f s) :
    ∀ x ∈ toks f s, x.typ = .itemH1 → ∃ k, 1 ≤ k ∧ x.val = List.replicate k 35 := by
  revert hv
  refine toks_induct
    (fun f s ts => AtHash f s →
      ∀ x ∈ ts, x.typ = .itemH1 → ∃ k, 1 ≤ k ∧ x.val = List.replicate k 35) ?_ ?_ f s
  · intro f s _ hv
    exact stepItems_H1 f s hv
  · intro f g s ts hnx ih hv x hx
    rcases List.mem_append.1 hx with h | h
    · exact stepItems_H1 f s hv x h
    · exact ih (AtHash_step f g s hnx) x h

/-! ## The decoder and the encoding of runes -/

theorem decode_width_le_four (s : List Nat) : (DecodeRuneInString s).2 ≤ 4 := by
  rcases s with _ | ⟨b, t⟩
  · simp [DecodeRuneInString]
  · by_cases h : b < 128
    · rw [decode_ascii b t h]; simp
    · rcases decode_shape b t (by omega) with hd | ⟨_, _, _, _, _, _, hd⟩ |
        ⟨_, _, _, _, _, _, _, _, hd⟩ | ⟨_, _, _, _, _, _, _, _, _, _, hd⟩ <;>
        rw [hd] <;> simp

/-- A decoding of width two to four is the inverse of the UTF-8 encoding: the
bytes read are the encoding of the rune returned. -/
theorem decode_encode (b : Nat) (t : List Nat) (h : 2 ≤ (DecodeRuneInString (b :: t)).2) :
    ∃ c : Nat, (DecodeRuneInString (b :: t)).1 = (c : Int) ∧
      encodeRune c = (b :: t).take (DecodeRuneInString (b :: t)).2 := by
  revert h
  generalize hd : DecodeRuneInString (b :: t) = d
  rcases first_cases b with ⟨h0, hf⟩ | ⟨h0, hf⟩ | ⟨h0, h0', hf⟩ | ⟨h0, hf⟩ | ⟨h0, h0', hf⟩ |
    ⟨h0, hf⟩ | ⟨h0, hf⟩ | ⟨h0, h0', hf⟩ | ⟨h0, hf⟩
  · rw [decode_ascii b t h0] at hd; subst hd; intro h; simp at h
  · rw [decode_cons, hf] at hd
    have : d = (RuneError, 1) := hd.symm
    subst this; intro h; simp at h
  · rw [decode_cons, hf] at hd
    rcases t with _ | ⟨b1, t1⟩ <;> simp [acceptRanges] at hd <;>
      (try split_ifs at hd) <;> subst hd <;> intro h <;> (try simp at h)
    refine ⟨b % 32 * 64 + b1 % 64, by simp, ?_⟩
    have e1 : ¬ b % 32 * 64 + b1 % 64 < 128 := by omega
    have e2 : b % 32 * 64 + b1 % 64 < 2048 := by omega
    simp only [encodeRune, e1, e2, if_true, if_false, List.take_succ_cons, List.take_zero]
    congr 1
    · omega
    · congr 1; omega
  · rw [decode_cons, hf] at hd
    rcases t with _ | ⟨b1, _ | ⟨b2, t2⟩⟩ <;> simp [acceptRanges] at hd <;>
      (try split_ifs at hd) <;> subst hd <;> intro h <;> (try simp at h)
    refine ⟨b % 16 * 4096 + b1 % 64 * 64 + b2 % 64, by simp, ?_⟩
    have e1 : ¬ b % 16 * 4096 + b1 % 64 * 64 + b2 % 64 < 128 := by omega
    have e2 : ¬ b % 16 * 4096 + b1 % 64 * 64 + b2 % 64 < 2048 := by omega
    have e3 : b % 16 * 4096 + b1 % 64 * 64 + b2 % 64 < 65536 := by omega
    simp only [encodeRune, e1, e2, e3, if_true, if_false, List.take_succ_cons, List.take_zero]
    congr 1
    · omega
    · congr 1
      · omega
      · congr 1; omega
  · rw [decode_cons, hf] at hd
    rcases t with _ | ⟨b1, _ | ⟨b2, t2⟩⟩ <;> simp [acceptRanges] at hd <;>
      (try split_ifs at hd) <;> subst hd <;> intro h <;> (try simp at h)
    refine ⟨b % 16 * 4096 + b1 % 64 * 64 + b2 % 64, by simp, ?_⟩
    have e1 : ¬ b % 16 * 4096 + b1 % 64 * 64 + b2 % 64 < 128 := by omega
    have e2 : ¬ b % 16 * 4096 + b1 % 64 * 64 + b2 % 64 < 2048 := by omega
    have e3 : b % 16 * 4096 + b1 % 64 * 64 + b2 % 64 < 65536 := by omega
    simp only [encodeRune, e1, e2, e3, if_true, if_false, List.take_succ_cons, List.take_zero]
    congr 1
    · omega
    · congr 1
      · omega
      · congr 1; omega
  · rw [decode_cons, hf] at hd
    rcases t with _ | ⟨b1, _ | ⟨b2, t2⟩⟩ <;> simp [acceptRanges] at hd <;>
      (try split_ifs at hd) <;> subst hd <;> intro h <;> (try simp at h)
    refine ⟨b % 16 * 4096 + b1 % 64 * 64 + b2 % 64, by simp, ?_⟩
    have e1 : ¬ b % 16 * 4096 + b1 % 64 * 64 + b2 % 64 < 128 := by omega
    have e2 : ¬ b % 16 * 4096 + b1 % 64 * 64 + b2 % 64 < 2048 := by omega
    have e3 : b % 16 * 4096 + b1 % 64 * 64 + b2 % 64 < 65536 := by omega
    simp only [encodeRune, e1, e2, e3, if_true, if_false, List.take_succ_cons, List.take_zero]
    congr 1
    · omega
    · congr 1
      · omega
      · congr 1; omega
  · rw [decode_cons, hf] at hd
    rcases t with _ | ⟨b1, _ | ⟨b2, _ | ⟨b3, t3⟩⟩⟩ <;> simp [acceptRanges] at hd <;>
      (try split_ifs at hd) <;> subst hd <;> intro h <;> (try simp at h)
    refine ⟨b % 8 * 262144 + b1 % 64 * 4096 + b2 % 64 * 64 + b3 % 64, by simp, ?_⟩
    have e1 : ¬ b % 8 * 262144 + b1 % 64 * 4096 + b2 % 64 * 64 + b3 % 64 < 128 := by omega
    have e2 : ¬ b % 8 * 262144 + b1 % 64 * 4096 + b2 % 64 * 64 + b3 % 64 < 2048 := by omega
    have e3 : ¬ b % 8 * 262144 + b1 % 64 * 4096 + b2 % 64 * 64 + b3 % 64 < 65536 := by omega
    simp only [encodeRune, e1, e2, e3, if_false, List.take_succ_cons, List.take_zero]
    congr 1
    · omega
    · congr 1
      · omega
      · congr 1
        · omega
        · congr 1; omega
  · rw [decode_cons, hf] at hd
    rcases t with _ | ⟨b1, _ | ⟨b2, _ | ⟨b3, t3⟩⟩⟩ <;> simp [acceptRanges] at hd <;>
      (try split_ifs at hd) <;> subst hd <;> intro h <;> (try simp at h)
    refine ⟨b % 8 * 262144 + b1 % 64 * 4096 + b2 % 64 * 64 + b3 % 64, by simp, ?_⟩
    have e1 : ¬ b % 8 * 262144 + b1 % 64 * 4096 + b2 % 64 * 64 + b3 % 64 < 128 := by omega
    have e2 : ¬ b % 8 * 262144 + b1 % 64 * 4096 + b2 % 64 * 64 + b3 % 64 < 2048 := by omega
    have e3 : ¬ b % 8 * 262144 + b1 % 64 * 4096 + b2 % 64 * 64 + b3 % 64 < 65536 := by omega
    simp only [encodeRune, e1, e2, e3, if_false, List.take_succ_cons, List.take_zero]
    congr 1
    · omega
    · congr 1
      · omega
      · congr 1
        · omega
        · congr 1; omega
  · rw [decode_cons, hf] at hd
    rcases t with _ | ⟨b1, _ | ⟨b2, _ | ⟨b3, t3⟩⟩⟩ <;> simp [acceptRanges] at hd <;>
      (try split_ifs at hd) <;> subst hd <;> intro h <;> (try simp at h)
    refine ⟨b % 8 * 262144 + b1 % 64 * 4096 + b2 % 64 * 64 + b3 % 64, by simp, ?_⟩
    have e1 : ¬ b % 8 * 262144 + b1 % 64 * 4096 + b2 % 64 * 64 + b3 % 64 < 128 := by omega
    have e2 : ¬ b % 8 * 262144 + b1 % 64 * 4096 + b2 % 64 * 64 + b3 % 64 < 2048 := by omega
    have e3 : ¬ b % 8 * 262144 + b1 % 64 * 4096 + b2 % 64 * 64 + b3 % 64 < 65536 := by omega
    simp only [encodeRune, e1, e2, e3, if_false, List.take_succ_cons, List.take_zero]
    congr 1
    · omega
    · congr 1
      · omega
      · congr 1
        · omega
        · congr 1; omega

/-! ## Every round of the loop of `nextItem` -/

/-- The invariant of a run. -/
structure RunInv (input : List Nat) (l : lexer) : Prop where
  ready : Ready l
  hin : l.input = input
  hlen : l.items.length ≤ itemsCap
  hash : ∀ f, l.state = some f → AtHash f (l.input.drop l.pos)

theorem stepItems_length_le (f : stateFn) (s : List Nat) : (stepItems f s).length ≤ 2 := by
  cases f
  · simp [stepItems]
  · simp only [stepItems, List.length_append]
    split <;> split <;> simp
  · rcases s with _ | ⟨b, t⟩ <;> simp [stepItems]
  · simp only [stepItems]
    split <;> simp

/-- A state function called in a run returns; what it does is given by
`stepItems`, `stepLen` and `stepNext`. -/
theorem RunInv.call_spec {input : List Nat} {l : lexer} (h : RunInv input l) (f : stateFn)
    (hst : l.state = some f) (hi : l.items = []) :
    ∃ w, callState f l =
      .ok ({ l with pos := l.pos + stepLen f (l.input.drop l.pos),
                    start := l.pos + stepLen f (l.input.drop l.pos),
                    width := w,
                    items := stepItems f (l.input.drop l.pos) },
        stepNext f (l.input.drop l.pos)) := by
  have hv : f = .lexHeader → l.pos < l.input.length := by
    intro hf
    have := h.ready.hv f hst hf
    have hp := h.ready.hp
    by_contra hc
    exact this (List.drop_eq_nil_of_le (by omega))
  exact callState_spec f l h.ready.hs h.ready.hp hi hv

theorem Run.invariant {name input : List Nat} {l : lexer} (h : Run name input l) :
    RunInv input l := by
  induction h with
  | init =>
    refine ⟨Ready_lex name input, rfl, by simp [lex], ?_⟩
    intro f hf hh
    subst hh
    simp [lex] at hf
  | recv l it rest _ hq ih =>
    refine ⟨⟨ih.ready.hs, ih.ready.hp, ih.ready.hv⟩, ih.hin, ?_, ih.hash⟩
    have := ih.hlen
    rw [hq] at this
    simp only [List.length_cons] at this ⊢
    omega
  | call l l1 f s _ hq hst hcall ih =>
    obtain ⟨w, hw⟩ := ih.call_spec f hst hq
    rw [hw] at hcall
    injection hcall with hcall
    injection hcall with h1 h2
    subst h1 h2
    have hle := stepLen_le f (l.input.drop l.pos)
    have hp := ih.ready.hp
    rw [List.length_drop] at hle
    refine ⟨⟨rfl, by simp; omega, ?_⟩, ih.hin, stepItems_length_le _ _, ?_⟩
    · intro g hg
      simpa [List.drop_drop] using Valid_step f g _ hg
    · intro g hg
      simpa [List.drop_drop] using AtHash_step f g _ hg

/-- A call of the loop of `nextItem` that returns leaves a lexer of the run. -/
theorem Run.of_nextItemLoop {name input : List Nat} (n : Nat) (l l1 : lexer) (it : item)
    (h : Run name input l) (hstep : nextItemLoop n l = .ok (it, l1)) : Run name input l1 := by
  induction n generalizing l with
  | zero => simp [nextItemLoop] at hstep
  | succ n ih =>
    rw [nextItemLoop] at hstep
    rcases hq : l.items with _ | ⟨x, q⟩
    · rw [hq] at hstep
      rcases hst : l.state with _ | f
      · rw [hst] at hstep
        cases hstep
      · rw [hst] at hstep
        simp only at hstep
        rcases hc : callState f l with e | ⟨l2, s⟩
        · rw [hc] at hstep
          cases hstep
        · rw [hc] at hstep
          exact ih _ (Run.call l l2 f s h hq hst hc) hstep
    · rw [hq] at hstep
      simp only at hstep
      injection hstep with hstep
      injection hstep with h1 h2
      subst h1 h2
      exact Run.recv l x q h hq

/-- The lexers a client holds between two calls of `nextItem` are lexers of
the run. -/
theorem Reachable.run {name input : List Nat} {l : lexer} (h : Reachable name input l) :
    Run name input l := by
  induction h with
  | init => exact Run.init
  | step l l1 it _ hstep ih => exact Run.of_nextItemLoop 4 l l1 it ih hstep

/-! ## Tokens and input (claims C11 to C13) -/

/-- C11: for every input, the texts of the collected `Text` and `H1` tokens,
in the order of the tokens, are consecutive spans of the input: the input is a
first gap, then each text followed by a gap, and every gap is made of newline,
space and tab bytes only. -/
theorem order_preservation (name input : List Nat) :
    ∃ items g0 pairs, collect name input = .ok items ∧
      (items.filter isData).map (fun x => x.val) = pairs.map (fun p => p.1) ∧
      input = weave g0 pairs ∧
      (∀ b ∈ g0, isBlank b) ∧ ∀ p ∈ pairs, ∀ b ∈ p.2, isBlank b := by
  obtain ⟨g0, pairs, h⟩ := toks_weave .lexNewLine input (Valid_lexNewLine input)
  exact ⟨_, g0, pairs, collect_eq_toks name input, h⟩

/-- C12: for every input, every collected `H1` or `Text` token has a text
that is not empty and is a contiguous part of the input. -/
theorem no_empty_tokens (name input : List Nat) :
    ∃ items, collect name input = .ok items ∧
      ∀ x ∈ items, (x.typ = .itemH1 ∨ x.typ = .itemText) →
        x.val ≠ [] ∧ x.val <:+: input := by
  refine ⟨_, collect_eq_toks name input, ?_⟩
  intro x hx ht
  exact toks_data .lexNewLine input (Valid_lexNewLine input) x hx
    (by simp only [isData, decide_eq_true_eq]; exact ht.symm)

/-- C13 (the code at the failing input): on "#\n" the `Text` token that follows
the `H1` token is the newline itself. -/
theorem header_text_keeps_newline :
    collect [] [35, 10] = .ok [⟨.itemH1, [35]⟩, ⟨.itemText, [10]⟩, ⟨.itemEOF, []⟩] := by
  rfl

/-! ## State functions and the loop of `nextItem` (claims C14 to C20) -/

theorem hashSpan_drop_head (t : List Nat) : (t.drop (hashSpan t)).head? ≠ some 35 := by
  induction t with
  | nil => simp [hashSpan]
  | cons b t ih =>
    by_cases hb : b = 35
    · simpa [hashSpan, hb] using ih
    · simp [hashSpan, hb]

/-- The state function `lexHeader` at a run of exactly `k` bytes `#`, with a
free slot in the buffer. -/
theorem lexHeader_run (l : lexer) (k : Nat) (u : List Nat)
    (hs : l.start = l.pos) (hk : 1 ≤ k)
    (hd : l.input.drop l.pos = List.replicate k 35 ++ u) (hu : u.head? ≠ some 35)
    (hi : l.items.length < itemsCap) :
    lexHeader l =
        .ok ({ l with pos := l.pos + k, start := l.pos + k,
                      items := l.items ++ [⟨.itemH1, List.replicate k 35⟩] },
          some .lexHeaderText) ∧
      l.input.drop (l.pos + k) = u := by
  obtain ⟨j, rfl⟩ : ∃ j, k = j + 1 := ⟨k - 1, by omega⟩
  rw [List.replicate_succ, List.cons_append] at hd
  obtain ⟨hd1, hlt⟩ := drop_succ_of_cons _ _ _ _ hd
  have hspan : hashSpan (l.input.drop (l.pos + 1)) = j := by
    rw [hd1, hashSpan_replicate, hashSpan_of_head u hu]
    rfl
  have hlen : (l.input.drop (l.pos + 1)).length = j + u.length := by
    rw [hd1]; simp
  rw [List.length_drop] at hlen
  have hdu : l.input.drop (l.pos + (j + 1)) = u := by
    have : l.input.drop (l.pos + (j + 1)) = (l.input.drop (l.pos + 1)).drop j := by
      rw [List.drop_drop]; congr 1; omega
    rw [this, hd1, List.drop_left' (List.length_replicate j 35)]
  refine ⟨?_, hdu⟩
  rw [lexHeader, lexHeaderLoop_spec _ _ (by simp [h1]; omega) (by simp [h1]; omega)]
  simp only [h1, List.length_singleton, hspan]
  rw [emit, slice_ok _ _ _ (by simp; omega) (by simp; omega)]
  simp only [hs, hi, if_true]
  have hval : List.take (l.pos + 1 + j - l.pos) (List.drop l.pos l.input) =
      List.replicate (j + 1) 35 := by
    have e : l.pos + 1 + j - l.pos = j + 1 := by omega
    rw [e, hd, ← List.cons_append, ← List.replicate_succ,
      List.take_left' (List.length_replicate (j + 1) 35)]
  rw [hval]
  simp [Nat.add_assoc, Nat.add_comm 1 j]

/-- C14: `lexHeader`, run with `start = pos` at exactly `k ≥ 1` bytes `#` (then
a byte that is not `#`, or the end of the input) and with a free slot in the
buffer, enqueues the one token `H1(#^k)`, leaves `start = pos = old pos + k`
and returns `lexHeaderText`.  In a run from `lex` the state `lexHeader` is only
called so; hence every collected `H1` token is a run of `#`, and the input
after its span does not begin with `#`. -/
theorem lexHeader_marker (l : lexer) (k : Nat) (u : List Nat)
    (hs : l.start = l.pos) (hk : 1 ≤ k)
    (hd : l.input.drop l.pos = List.replicate k 35 ++ u) (hu : u.head? ≠ some 35)
    (hi : l.items.length < itemsCap) :
    (lexHeader l =
        .ok ({ l with pos := l.pos + k, start := l.pos + k,
                      items := l.items ++ [⟨.itemH1, List.replicate k 35⟩] },
          some .lexHeaderText) ∧
      l.input.drop (l.pos + k) = u) ∧
    (∀ name input l1, Run name input l1 → l1.items = [] → l1.state = some .lexHeader →
      l1.start = l1.pos ∧ ∃ k1 u1, 1 ≤ k1 ∧
        l1.input.drop l1.pos = List.replicate k1 35 ++ u1 ∧ u1.head? ≠ some 35) ∧
    (∀ name input, ∃ items, collect name input = .ok items ∧
      ∀ x ∈ items, x.typ = .itemH1 → ∃ j, 1 ≤ j ∧ x.val = List.replicate j 35) := by
  refine ⟨lexHeader_run l k u hs hk hd hu hi, ?_, ?_⟩
  · intro name input l1 hrun _ hst
    have hinv := hrun.invariant
    refine ⟨hinv.ready.hs, ?_⟩
    have hh := hinv.hash .lexHeader hst rfl
    rcases hdrop : l1.input.drop l1.pos with _ | ⟨b, t⟩
    · rw [hdrop] at hh; cases hh
    · rw [hdrop] at hh
      have hb : b = 35 := by simpa using hh
      subst hb
      refine ⟨hashSpan t + 1, t.drop (hashSpan t), by omega, ?_, hashSpan_drop_head t⟩
      rw [List.replicate_succ, List.cons_append, ← take_hashSpan, List.take_append_drop]
  · intro name input
    refine ⟨_, collect_eq_toks name input, ?_⟩
    exact toks_H1 .lexNewLine input (fun h => by cases h)

/-- Witness for C14: `lexHeader` at the marker of "## a". -/
theorem lexHeader_marker_witness :
    lexHeader { name := [], input := bytes "## a", state := some .lexHeader, start := 0,
                pos := 0, width := 0, items := [] } =
      .ok ({ name := [], input := bytes "## a", state := some .lexHeader, start := 2,
             pos := 2, width := 0, items := [⟨.itemH1, [35, 35]⟩] },
        some .lexHeaderText) :=
  (lexHeader_marker
    { name := [], input := bytes "## a", state := some .lexHeader, start := 0,
      pos := 0, width := 0, items := [] }
    2 (bytes " a") rfl (by decide) (by decide) (by decide) (by decide)).1.1

/-- C15: every lexer of a run from `lex name input` (between two calls of
`nextItem` and on entry to a state function) scans `input` and has
`start ≤ pos ≤ len(input)`, with `start = pos` on entry to `lexNewLine` and
`lexHeader`; the state function then called returns: none of its slices is
out of range. -/
theorem cursor_bounds (name input : List Nat) (l : lexer) (h : Run name input l) :
    l.input = input ∧ l.start ≤ l.pos ∧ l.pos ≤ l.input.length ∧
      ((l.state = some .lexNewLine ∨ l.state = some .lexHeader) → l.start = l.pos) ∧
      (∀ f, l.state = some f → l.items = [] →
        ∃ l1 s, callState f l = .ok (l1, s) ∧ l1.start ≤ l1.pos ∧
          l1.pos ≤ l1.input.length) := by
  have hinv := h.invariant
  refine ⟨hinv.hin, by rw [hinv.ready.hs], hinv.ready.hp, fun _ => hinv.ready.hs, ?_⟩
  intro f hst hi
  obtain ⟨w, hw⟩ := hinv.call_spec f hst hi
  have hle := stepLen_le f (l.input.drop l.pos)
  have hp := hinv.ready.hp
  rw [List.length_drop] at hle
  exact ⟨_, _, hw, by simp, by simp; omega⟩

/-- Witness for C15: the lexer on entry to `lexHeader` in the run on "#". -/
theorem cursor_bounds_witness :
    ({ name := [], input := [35], state := some .lexHeader, start := 0, pos := 0,
       width := 0, items := [] } : lexer).input = [35] ∧
      (0 : Nat) ≤ 0 ∧ 0 ≤ [35].length ∧
      ((some stateFn.lexHeader = some .lexNewLine ∨ some stateFn.lexHeader = some .lexHeader) →
        (0 : Nat) = 0) ∧
      (∀ f, some stateFn.lexHeader = some f → ([] : List item) = [] →
        ∃ l1 s, callState f { name := [], input := [35], state := some .lexHeader, start := 0,
                              pos := 0, width := 0, items := [] } = .ok (l1, s) ∧
          l1.start ≤ l1.pos ∧ l1.pos ≤ l1.input.length) :=
  cursor_bounds [] [35]
    { name := [], input := [35], state := some .lexHeader, start := 0, pos := 0,
      width := 0, items := [] }
    (Run.call (lex [] [35]) (lex [] [35]) .lexNewLine (some .lexHeader) Run.init rfl rfl rfl)

/-- C16: in a run from `lex`, the buffer never holds more than two tokens; a
round of `nextItem` with a token in the buffer receives it and calls no state
function; a round with the buffer empty calls the state function, which
returns (no send blocks) having enqueued at most two tokens. -/
theorem buffer_bound (name input : List Nat) (l : lexer) (h : Run name input l) :
    l.items.length ≤ itemsCap ∧
      (∀ it rest n, l.items = it :: rest →
        nextItemLoop (n + 1) l = .ok (it, { l with items := rest })) ∧
      (∀ f, l.state = some f → l.items = [] →
        ∃ l1 s, callState f l = .ok (l1, s) ∧ l1.items.length ≤ itemsCap ∧
          ∀ n, nextItemLoop (n + 1) l = nextItemLoop n { l1 with state := s }) := by
  have hinv := h.invariant
  refine ⟨hinv.hlen, ?_, ?_⟩
  · intro it rest n hq
    rw [nextItemLoop, hq]
  · intro f hst hi
    obtain ⟨w, hw⟩ := hinv.call_spec f hst hi
    refine ⟨_, _, hw, stepItems_length_le _ _, ?_⟩
    intro n
    rw [nextItemLoop, hi, hst]
    simp only
    rw [hw]

/-- Witness for C16: the lexer made by `lex` on "a": the call of `lexNewLine`
enqueues nothing, that of `lexText` after it two tokens. -/
theorem buffer_bound_witness :
    (lex [] [97]).items.length ≤ itemsCap ∧
      (∀ it rest n, (lex [] [97]).items = it :: rest →
        nextItemLoop (n + 1) (lex [] [97]) = .ok (it, { lex [] [97] with items := rest })) ∧
      (∀ f, (lex [] [97]).state = some f → (lex [] [97]).items = [] →
        ∃ l1 s, callState f (lex [] [97]) = .ok (l1, s) ∧ l1.items.length ≤ itemsCap ∧
          ∀ n, nextItemLoop (n + 1) (lex [] [97]) = nextItemLoop n { l1 with state := s }) :=
  buffer_bound [] [97] (lex [] [97]) Run.init

/-- C17: with a token in the buffer, `nextItem` returns the oldest one and
removes it, and changes nothing else of the lexer (no state function runs);
the token behind it is returned by the next call. -/
theorem nextItem_fifo (l : lexer) (a : item) (rest : List item) (h : l.items = a :: rest) :
    nextItem l = .ok (a, { l with items := rest }) ∧
      ∀ b rest1, rest = b :: rest1 →
        nextItem { l with items := rest } = .ok (b, { l with items := rest1 }) := by
  refine ⟨by rw [nextItem, nextItemLoop, h], ?_⟩
  intro b rest1 hr
  rw [nextItem, nextItemLoop]
  simp only [hr]

/-- Witness for C17: the buffer `Text("a")`, `EOF` left by `lexText` on "a". -/
theorem nextItem_fifo_witness :
    nextItem { name := [], input := [97], state := none, start := 1, pos := 1, width := 0,
               items := [⟨.itemText, [97]⟩, ⟨.itemEOF, []⟩] } =
        .ok (⟨.itemText, [97]⟩,
          { name := [], input := [97], state := none, start := 1, pos := 1, width := 0,
            items := [⟨.itemEOF, []⟩] }) ∧
      ∀ b rest1, [(⟨.itemEOF, []⟩ : item)] = b :: rest1 →
        nextItem { name := [], input := [97], state := none, start := 1, pos := 1, width := 0,
                   items := [⟨.itemEOF, []⟩] } =
          .ok (b, { name := [], input := [97], state := none, start := 1, pos := 1,
                    width := 0, items := rest1 }) :=
  nextItem_fifo
    { name := [], input := [97], state := none, start := 1, pos := 1, width := 0,
      items := [⟨.itemText, [97]⟩, ⟨.itemEOF, []⟩] }
    ⟨.itemText, [97]⟩ [⟨.itemEOF, []⟩] rfl

/-- C18: the method `next`.  At or past the end of the input it returns `eof`
(-1), sets `width` to 0 and leaves `pos`; before the end it returns the rune
`r` decoded at `pos`, sets `width` to the width `w` of that decoding,
`1 ≤ w ≤ 4`, and moves `pos` by `w`, not past the end.  The `w` bytes read are
the UTF-8 encoding of `r`, unless they are an invalid encoding, which is read
as one byte and `RuneError`.  Nothing else of the lexer changes. -/
theorem next_rune (l : lexer) :
    (l.pos ≥ l.input.length → next l = .ok (-1, { l with width := 0 })) ∧
      (l.pos < l.input.length →
        ∃ r w, DecodeRuneInString (l.input.drop l.pos) = (r, w) ∧ 1 ≤ w ∧ w ≤ 4 ∧
          l.pos + w ≤ l.input.length ∧
          next l = .ok (r, { l with width := w, pos := l.pos + w }) ∧
          ((∃ c : Nat, r = (c : Int) ∧ encodeRune c = (l.input.drop l.pos).take w) ∨
            (r = RuneError ∧ w = 1))) := by
  constructor
  · intro hge
    rw [next, if_pos hge]
    rfl
  · intro hlt
    have hwl := decode_width_le (l.input.drop l.pos)
    have hw4 := decode_width_le_four (l.input.drop l.pos)
    rw [List.length_drop] at hwl
    refine ⟨(DecodeRuneInString (l.input.drop l.pos)).1,
      (DecodeRuneInString (l.input.drop l.pos)).2, rfl, ?_, hw4, by omega, ?_, ?_⟩
    · rcases hd : l.input.drop l.pos with _ | ⟨b, t⟩
      · have := congrArg List.length hd
        simp at this; omega
      · exact decode_width_pos b t
    · rw [next, if_neg (by omega), sliceFrom_ok _ _ (by omega)]
    · rcases hd : l.input.drop l.pos with _ | ⟨b, t⟩
      · have := congrArg List.length hd
        simp at this; omega
      · by_cases h2 : 2 ≤ (DecodeRuneInString (b :: t)).2
        · exact Or.inl (decode_encode b t h2)
        · by_cases hb : b < 128
          · left
            rw [decode_ascii b t hb]
            exact ⟨b, rfl, by simp [encodeRune, hb]⟩
          · right
            rcases decode_shape b t (by omega) with h | ⟨_, _, _, _, _, _, h⟩ |
              ⟨_, _, _, _, _, _, _, _, h⟩ | ⟨_, _, _, _, _, _, _, _, _, _, h⟩
            · rw [h]; exact ⟨rfl, rfl⟩
            all_goals (rw [h] at h2; simp at h2)

/-- C19 (the code at the failing input): on "#a#b" the second `H1` token is
the `#` at offset 2, right after the byte `a`: `lexHeaderText` finds no newline
after the first rune of the header text, leaves the cursor there, and
`lexNewLine`, entered at offset 2, goes to `lexHeader`. -/
theorem header_marker_mid_line :
    collect [] (bytes "#a#b") =
        .ok [⟨.itemH1, [35]⟩, ⟨.itemText, [97]⟩, ⟨.itemH1, [35]⟩, ⟨.itemText, [98]⟩,
          ⟨.itemEOF, []⟩] ∧
      lexHeaderText { name := [], input := bytes "#a#b", state := some .lexHeaderText,
                      start := 1, pos := 1, width := 0, items := [] } =
        .ok ({ name := [], input := bytes "#a#b", state := some .lexHeaderText,
               start := 2, pos := 2, width := 1, items := [⟨.itemText, [97]⟩] },
          some .lexNewLine) ∧
      lexNewLine { name := [], input := bytes "#a#b", state := some .lexNewLine,
                   start := 2, pos := 2, width := 1, items := [] } =
        .ok ({ name := [], input := bytes "#a#b", state := some .lexNewLine,
               start := 2, pos := 2, width := 1, items := [] },
          some .lexHeader) := by
  refine ⟨rfl, rfl, rfl⟩

/-- C20: for every input, no collected `Text` or `H1` token has a text with
two newline bytes in a row. -/
theorem no_token_spans_boundary (name input : List Nat) :
    ∃ items, collect name input = .ok items ∧
      ∀ x ∈ items, (x.typ = .itemText ∨ x.typ = .itemH1) → ¬ endPar <:+: x.val := by
  refine ⟨_, collect_eq_toks name input, ?_⟩
  intro x hx _
  exact toks_no_sep .lexNewLine input x hx

end Parse

